import Mathlib

/-!
Verification of the buddy-system memory allocator
(source: s92066684_Miniproject_BuddySystem.py, class BuddySystem).

The Python object state is embedded as a structure:
* the Python dict `free_list` (size -> list of addresses) is an association
  list with unique keys; a key that is absent behaves exactly like a key
  mapped to the empty list in every core operation (lookups use a default,
  the allocation scan skips empty lists), which the lemmas below exploit;
* the Python dict `allocated` (address -> size) is likewise an association
  list with unique keys;
* sizes and addresses are natural numbers (the operations are only ever
  reached with non-negative arguments in the claims below; the constructor,
  where negative input matters, is modelled separately on Int).

Each mutating method returns the pair (raised-or-returned result, object
state after the call), so that atomicity of failing calls is a statement
about the returned state.
-/

/-- The four error kinds raised by the source as ValueError with distinct
messages: construction with a non-power-of-two size, a rounded request larger
than total memory, no free block large enough, and an invalid free. -/
inductive AllocError where
  | notPowerOfTwo
  | requestTooLarge
  | noSuitableBlock
  | invalidFree
deriving DecidableEq, Repr

/-- State of a BuddySystem object: total memory, the free-list dict
(block size -> addresses of free blocks of that size, in list order)
and the allocated dict (address -> block size). -/
structure BuddySystem where
  total_memory : Nat
  free_list : List (Nat × List Nat)
  allocated : List (Nat × Nat)
deriving DecidableEq, Repr

/-- Python dict lookup with default []: value of the first binding of the key,
or [] when the key is absent (mirrors free_list.get(size, []) and, on present
keys, free_list[size]). -/
def dictGetD : List (Nat × List Nat) → Nat → List Nat
  | [], _ => []
  | kv :: rest, k => if kv.1 = k then kv.2 else dictGetD rest k

/-- Python dict assignment free_list[k] = v: replaces the value of an existing
binding in place, or appends a new binding at the end. -/
def dictSet : List (Nat × List Nat) → Nat → List Nat → List (Nat × List Nat)
  | [], k, v => [(k, v)]
  | kv :: rest, k, v => if kv.1 = k then (k, v) :: rest else kv :: dictSet rest k v

/-- The combination free_list.setdefault(k, []).append(x) used by the split
loop: append x at the end of the key's list, creating the key if absent. -/
def dictAppend (d : List (Nat × List Nat)) (k x : Nat) : List (Nat × List Nat) :=
  dictSet d k (dictGetD d k ++ [x])

/-- Python membership/lookup in the allocated dict: size recorded for an
address, if any. -/
def lookupA : List (Nat × Nat) → Nat → Option Nat
  | [], _ => none
  | kv :: rest, k => if kv.1 = k then some kv.2 else lookupA rest k

/-- Python dict assignment allocated[k] = v. -/
def mapSet : List (Nat × Nat) → Nat → Nat → List (Nat × Nat)
  | [], k, v => [(k, v)]
  | kv :: rest, k, v => if kv.1 = k then (k, v) :: rest else kv :: mapSet rest k v

/-- Python del allocated[k]: removes the binding of the key. -/
def mapErase : List (Nat × Nat) → Nat → List (Nat × Nat)
  | [], _ => []
  | kv :: rest, k => if kv.1 = k then rest else kv :: mapErase rest k

/-- Key list of a dict, in binding order. -/
def keys (d : List (Nat × α)) : List Nat := d.map Prod.fst

/-- Python's list.sort() / sorted(...) on naturals: sort ascending. -/
def pySort (l : List Nat) : List Nat := List.insertionSort (· ≤ ·) l

/-- All free blocks of a free-list dict as (address, size) pairs, in dict
and list order. -/
def freeBlocks (d : List (Nat × List Nat)) : List (Nat × Nat) :=
  (d.map (fun kv => kv.2.map (fun a => (a, kv.1)))).flatten

/-- All blocks tracked by the allocator, free and allocated, as
(address, size) pairs. -/
def allBlocks (b : BuddySystem) : List (Nat × Nat) :=
  freeBlocks b.free_list ++ b.allocated

/-- Whether the half-open interval of the block p contains the point x. -/
def inBlk (x : Nat) (p : Nat × Nat) : Bool :=
  decide (p.1 ≤ x ∧ x < p.1 + p.2)

/-- The while loop of next_power_of_two: double power while it is below size.
The loop multiplies power by two each iteration, so it runs at most
log2(size) + 1 <= size times; the structural fuel argument, instantiated
with size at the call site, therefore never runs out. -/
def npotLoop : Nat → Nat → Nat → Nat
  | 0, power, _ => power
  | fuel + 1, power, size => if power < size then npotLoop fuel (power * 2) size else power

/-- BuddySystem.next_power_of_two: returns size itself when
size & (size - 1) == 0, otherwise the first power of two reached by doubling
from 1. On naturals this agrees with the Python source for every non-negative
argument (for size = 0 both compute 0 & -1 == 0 resp. 0 &&& 0 = 0 and
return 0). -/
def next_power_of_two (size : Nat) : Nat :=
  if size &&& (size - 1) == 0 then size
  else npotLoop size 1 size

/-- State of a freshly constructed BuddySystem(total_memory): the free list
holds the single block [0, total_memory) and nothing is allocated. -/
def mkBuddy (total : Nat) : BuddySystem :=
  { total_memory := total, free_list := [(total, [0])], allocated := [] }

/-- BuddySystem.__init__ on an arbitrary Python integer: raises ValueError
(NotPowerOfTwo) when total_memory & (total_memory - 1) != 0, and otherwise
constructs the initial state. Int.land is Python's & on arbitrary-precision
integers (two's complement on negatives). The toNat conversion is faithful
because every accepted value is non-negative (proved below). -/
def pyInit (total_memory : Int) : Except AllocError BuddySystem :=
  if Int.land total_memory (total_memory - 1) ≠ 0 then
    Except.error AllocError.notPowerOfTwo
  else
    Except.ok (mkBuddy total_memory.toNat)

/-- The split loop of BuddySystem.allocate: while block_size > size, halve
block_size and append the buddy address (address + block_size) to the free
list of the halved size. -/
def splitLoop (fl : List (Nat × List Nat)) (address size block_size : Nat) :
    List (Nat × List Nat) :=
  if h : size < block_size then
    splitLoop (dictAppend fl (block_size / 2) (address + block_size / 2))
      address size (block_size / 2)
  else fl
termination_by block_size
decreasing_by exact Nat.div_lt_self (by omega) (by omega)

/-- The (address, size) blocks appended to the free list by one run of the
split loop, used to state its effect. -/
def splitPieces (address size block_size : Nat) : List (Nat × Nat) :=
  if h : size < block_size then
    (address + block_size / 2, block_size / 2) :: splitPieces address size (block_size / 2)
  else []
termination_by block_size
decreasing_by exact Nat.div_lt_self (by omega) (by omega)

/-- The coalescing loop of BuddySystem.free: while size < total_memory, look
for the buddy (address XOR size) among the free blocks of the same size; if
present remove it, continue from the lower of the two addresses with the
doubled size, otherwise stop. Returns the final address, size and free list. -/
def mergeLoop (total : Nat) (fl : List (Nat × List Nat)) (address size : Nat) :
    Nat × Nat × List (Nat × List Nat) :=
  if hlt : size < total then
    if h : (address ^^^ size) ∈ dictGetD fl size then
      mergeLoop total (dictSet fl size ((dictGetD fl size).erase (address ^^^ size)))
        (min address (address ^^^ size)) (size * 2)
    else (address, size, fl)
  else (address, size, fl)
termination_by (total - size, (dictGetD fl size).length)
decreasing_by
  have hget : ∀ (d : List (Nat × List Nat)) (k : Nat) (v : List Nat),
      dictGetD (dictSet d k v) k = v := by
    intro d k v
    induction d with
    | nil => simp [dictSet, dictGetD]
    | cons kv rest ih =>
      by_cases hk : kv.1 = k
      · simp [dictSet, dictGetD, hk]
      · simp [dictSet, dictGetD, hk, ih]
  rcases Nat.eq_zero_or_pos size with hz | hpos
  · subst hz
    have : (dictGetD (dictSet fl 0 ((dictGetD fl 0).erase (address ^^^ 0))) 0).length <
        (dictGetD fl 0).length := by
      rw [hget]
      have := List.length_erase_of_mem h
      have hmem : 0 < (dictGetD fl 0).length := List.length_pos.mpr (List.ne_nil_of_mem h)
      omega
    exact Prod.Lex.right _ (by simpa using this)
  · exact Prod.Lex.left _ _ (by omega)

/-- The block-search loop of BuddySystem.allocate over the sorted key list of
the free-list dict: take the first size that is at least the request and has a
non-empty list, pop its first address, run the split loop, and record the
allocation; raise NoSuitableBlock when the scan is exhausted. -/
def allocLoop (b : BuddySystem) (size : Nat) :
    List Nat → Except AllocError Nat × BuddySystem
  | [] => (Except.error AllocError.noSuitableBlock, b)
  | bs :: rest =>
    if size ≤ bs then
      match dictGetD b.free_list bs with
      | [] => allocLoop b size rest
      | address :: tl =>
        (Except.ok address,
         { total_memory := b.total_memory,
           free_list := splitLoop (dictSet b.free_list bs tl) address size bs,
           allocated := mapSet b.allocated address size })
    else allocLoop b size rest

/-- BuddySystem.allocate: round the request up, raise RequestTooLarge when the
rounded size exceeds total memory, otherwise scan the sorted free-list keys. -/
def allocate (b : BuddySystem) (size0 : Nat) : Except AllocError Nat × BuddySystem :=
  let size := next_power_of_two size0
  if b.total_memory < size then (Except.error AllocError.requestTooLarge, b)
  else allocLoop b size (pySort (keys b.free_list))

/-- BuddySystem.free: round the size, raise RequestTooLarge when it exceeds
total memory, raise InvalidFree when the address is not allocated with exactly
the rounded size; otherwise delete the allocation, run the coalescing loop,
and insert the resulting block into its (sorted) free list. -/
def free (b : BuddySystem) (address size0 : Nat) : Except AllocError Unit × BuddySystem :=
  let size := next_power_of_two size0
  if b.total_memory < size then (Except.error AllocError.requestTooLarge, b)
  else
    match lookupA b.allocated address with
    | none => (Except.error AllocError.invalidFree, b)
    | some s0 =>
      if s0 ≠ size then (Except.error AllocError.invalidFree, b)
      else
        match mergeLoop b.total_memory b.free_list address size with
        | (a1, s1, fl1) =>
          (Except.ok (),
           { total_memory := b.total_memory,
             free_list := dictSet fl1 s1 (pySort (dictGetD fl1 s1 ++ [a1])),
             allocated := mapErase b.allocated address })

/-- States reachable from a freshly constructed allocator with a power-of-two
total memory by successful allocate/free calls with positive size arguments.
Failing calls return the input state unchanged (proved as the atomicity parts
of the error-handling theorems below), so sequences containing failed calls
reach exactly the states of this relation. -/
inductive Reachable : BuddySystem → Prop where
  | init (k : Nat) : Reachable (mkBuddy (2 ^ k))
  | step_alloc {b b' : BuddySystem} {n a : Nat} :
      Reachable b → 1 ≤ n → allocate b n = (Except.ok a, b') → Reachable b'
  | step_free {b b' : BuddySystem} {addr n : Nat} :
      Reachable b → 1 ≤ n → free b addr n = (Except.ok (), b') → Reachable b'

/-- The allocator invariant: power-of-two total memory; every point of
[0, total_memory) is covered by exactly one tracked block; every block lies
inside the range, has power-of-two size and an address aligned to its size;
both dicts have unique keys; every free list is sorted ascending; and no free
list contains an address together with its buddy. -/
def BuddyInv (b : BuddySystem) : Prop :=
  (∃ k, b.total_memory = 2 ^ k) ∧
  (∀ x, x < b.total_memory → (allBlocks b).countP (inBlk x) = 1) ∧
  (∀ p ∈ allBlocks b, p.1 + p.2 ≤ b.total_memory ∧ (∃ j, p.2 = 2 ^ j) ∧ p.2 ∣ p.1) ∧
  (keys b.free_list).Nodup ∧
  (keys b.allocated).Nodup ∧
  (∀ k, List.Sorted (· ≤ ·) (dictGetD b.free_list k)) ∧
  (∀ k, ∀ a ∈ dictGetD b.free_list k, (a ^^^ k) ∉ dictGetD b.free_list k)

theorem dictGetD_nil (k : Nat) : dictGetD [] k = [] := rfl

theorem dictGetD_cons (kv : Nat × List Nat) (rest : List (Nat × List Nat)) (k : Nat) :
    dictGetD (kv :: rest) k = if kv.1 = k then kv.2 else dictGetD rest k := rfl

theorem dictSet_cons_self (kv : Nat × List Nat) (rest : List (Nat × List Nat))
    (v : List Nat) : dictSet (kv :: rest) kv.1 v = (kv.1, v) :: rest := by
  simp [dictSet]

theorem dictSet_cons_ne (kv : Nat × List Nat) (rest : List (Nat × List Nat))
    (k : Nat) (v : List Nat) (h : kv.1 ≠ k) :
    dictSet (kv :: rest) k v = kv :: dictSet rest k v := by
  simp [dictSet, h]

theorem dictGetD_dictSet_self (d : List (Nat × List Nat)) (k : Nat) (v : List Nat) :
    dictGetD (dictSet d k v) k = v := by
  induction d with
  | nil => simp [dictSet, dictGetD]
  | cons kv rest ih =>
    by_cases hk : kv.1 = k
    · subst hk
      rw [dictSet_cons_self, dictGetD_cons, if_pos rfl]
    · rw [dictSet_cons_ne _ _ _ _ hk, dictGetD_cons, if_neg hk, ih]

theorem dictGetD_dictSet_ne (d : List (Nat × List Nat)) (k : Nat) (v : List Nat)
    {q : Nat} (h : q ≠ k) : dictGetD (dictSet d k v) q = dictGetD d q := by
  induction d with
  | nil =>
    rw [show dictSet [] k v = [(k, v)] from rfl, dictGetD_cons, if_neg (Ne.symm h)]
  | cons kv rest ih =>
    by_cases hk : kv.1 = k
    · subst hk
      rw [dictSet_cons_self, dictGetD_cons, dictGetD_cons, if_neg (Ne.symm h),
        if_neg (Ne.symm h)]
    · rw [dictSet_cons_ne _ _ _ _ hk, dictGetD_cons, dictGetD_cons, ih]

theorem dictGetD_dictAppend_self (d : List (Nat × List Nat)) (k x : Nat) :
    dictGetD (dictAppend d k x) k = dictGetD d k ++ [x] := by
  simp [dictAppend, dictGetD_dictSet_self]

theorem dictGetD_dictAppend_ne (d : List (Nat × List Nat)) (k x : Nat)
    {q : Nat} (h : q ≠ k) : dictGetD (dictAppend d k x) q = dictGetD d q := by
  simp [dictAppend, dictGetD_dictSet_ne _ _ _ h]

theorem mem_keys_dictSet (d : List (Nat × List Nat)) (k : Nat) (v : List Nat) (q : Nat) :
    q ∈ keys (dictSet d k v) ↔ q ∈ keys d ∨ q = k := by
  induction d with
  | nil => simp [dictSet, keys]
  | cons kv rest ih =>
    by_cases hk : kv.1 = k
    · subst hk
      rw [dictSet_cons_self]
      simp only [keys, List.map_cons, List.mem_cons]
      tauto
    · rw [dictSet_cons_ne _ _ _ _ hk]
      simp only [keys, List.map_cons, List.mem_cons] at ih ⊢
      rw [ih]
      tauto

theorem nodup_keys_dictSet (d : List (Nat × List Nat)) (k : Nat) (v : List Nat)
    (h : (keys d).Nodup) : (keys (dictSet d k v)).Nodup := by
  induction d with
  | nil => simp [dictSet, keys]
  | cons kv rest ih =>
    simp only [keys, List.map_cons, List.nodup_cons] at h
    by_cases hk : kv.1 = k
    · subst hk
      rw [dictSet_cons_self]
      simp only [keys, List.map_cons, List.nodup_cons]
      exact ⟨by simpa [keys] using h.1, h.2⟩
    · rw [dictSet_cons_ne _ _ _ _ hk]
      simp only [keys, List.map_cons, List.nodup_cons]
      refine ⟨?_, ih h.2⟩
      intro hmem
      rcases (mem_keys_dictSet rest k v kv.1).mp (by simpa [keys] using hmem) with hm | hm
      · exact h.1 (by simpa [keys] using hm)
      · exact hk hm

theorem freeBlocks_nil : freeBlocks [] = [] := rfl

theorem freeBlocks_cons (kv : Nat × List Nat) (rest : List (Nat × List Nat)) :
    freeBlocks (kv :: rest) = kv.2.map (fun a => (a, kv.1)) ++ freeBlocks rest := by
  simp [freeBlocks]

theorem freeBlocks_dictSet_perm (d : List (Nat × List Nat)) (k : Nat) (v : List Nat) :
    (freeBlocks (dictSet d k v) ++ (dictGetD d k).map (fun a => (a, k))).Perm
      (freeBlocks d ++ v.map (fun a => (a, k))) := by
  induction d with
  | nil => simp [dictSet, dictGetD, freeBlocks, List.perm_append_comm]
  | cons kv rest ih =>
    by_cases hk : kv.1 = k
    · subst hk
      rw [dictSet_cons_self, dictGetD_cons, if_pos rfl, freeBlocks_cons, freeBlocks_cons]
      refine List.perm_iff_count.mpr (fun p => ?_)
      simp only [List.count_append]
      omega
    · rw [dictSet_cons_ne _ _ _ _ hk, dictGetD_cons, if_neg hk, freeBlocks_cons,
        freeBlocks_cons, List.append_assoc, List.append_assoc]
      exact List.Perm.append_left _ ih

theorem mem_freeBlocks_of_dictGetD (d : List (Nat × List Nat)) (k : Nat) :
    ∀ x ∈ dictGetD d k, (x, k) ∈ freeBlocks d := by
  induction d with
  | nil => simp [dictGetD]
  | cons kv rest ih =>
    intro x hx
    rw [dictGetD_cons] at hx
    rw [freeBlocks_cons]
    by_cases hk : kv.1 = k
    · subst hk
      rw [if_pos rfl] at hx
      exact List.mem_append_left _ (List.mem_map_of_mem _ hx)
    · rw [if_neg hk] at hx
      exact List.mem_append_right _ (ih x hx)

theorem dictGetD_eq_nil_of_not_mem_keys (d : List (Nat × List Nat)) (k : Nat)
    (h : k ∉ keys d) : dictGetD d k = [] := by
  induction d with
  | nil => rfl
  | cons kv rest ih =>
    simp only [keys, List.map_cons, List.mem_cons] at h
    push_neg at h
    rw [dictGetD_cons, if_neg (fun hh => h.1 hh.symm)]
    exact ih (by simpa [keys] using h.2)

theorem mem_keys_of_dictGetD_ne_nil (d : List (Nat × List Nat)) (k : Nat)
    (h : dictGetD d k ≠ []) : k ∈ keys d := by
  by_contra hc
  exact h (dictGetD_eq_nil_of_not_mem_keys d k hc)

theorem mem_freeBlocks_iff (d : List (Nat × List Nat)) (p : Nat × Nat) :
    p ∈ freeBlocks d ↔ ∃ l, (p.2, l) ∈ d ∧ p.1 ∈ l := by
  induction d with
  | nil => simp [freeBlocks]
  | cons kv rest ih =>
    rw [freeBlocks_cons]
    simp only [List.mem_append, List.mem_map, List.mem_cons, ih]
    constructor
    · rintro (⟨a, ha, rfl⟩ | ⟨l, hl, hm⟩)
      · exact ⟨kv.2, Or.inl rfl, ha⟩
      · exact ⟨l, Or.inr hl, hm⟩
    · rintro ⟨l, hl | hl, hm⟩
      · subst hl
        exact Or.inl ⟨p.1, hm, rfl⟩
      · exact Or.inr ⟨l, hl, hm⟩

theorem dictGetD_of_mem_nodup (d : List (Nat × List Nat)) (kv : Nat × List Nat)
    (hd : (keys d).Nodup) (h : kv ∈ d) : dictGetD d kv.1 = kv.2 := by
  induction d with
  | nil => simp at h
  | cons kv0 rest ih =>
    simp only [keys, List.map_cons, List.nodup_cons] at hd
    rcases List.mem_cons.mp h with rfl | h
    · rw [dictGetD_cons, if_pos rfl]
    · rw [dictGetD_cons]
      have hne : kv0.1 ≠ kv.1 := by
        intro he
        exact hd.1 (he ▸ List.mem_map_of_mem Prod.fst h)
      rw [if_neg hne]
      exact ih hd.2 h

theorem lookupA_nil (k : Nat) : lookupA [] k = none := rfl

theorem lookupA_cons (kv : Nat × Nat) (rest : List (Nat × Nat)) (k : Nat) :
    lookupA (kv :: rest) k = if kv.1 = k then some kv.2 else lookupA rest k := rfl

theorem lookupA_eq_none_iff (d : List (Nat × Nat)) (k : Nat) :
    lookupA d k = none ↔ k ∉ keys d := by
  induction d with
  | nil => simp [lookupA, keys]
  | cons kv rest ih =>
    rw [lookupA_cons]
    by_cases hk : kv.1 = k
    · subst hk
      simp [keys]
    · rw [if_neg hk, ih]
      simp only [keys, List.map_cons, List.mem_cons]
      constructor
      · intro h
        push_neg
        exact ⟨fun hh => hk hh.symm, h⟩
      · intro h
        push_neg at h
        exact h.2

theorem lookupA_some_mem (d : List (Nat × Nat)) (k v : Nat)
    (h : lookupA d k = some v) : (k, v) ∈ d := by
  induction d with
  | nil => simp [lookupA] at h
  | cons kv rest ih =>
    rw [lookupA_cons] at h
    by_cases hk : kv.1 = k
    · rw [if_pos hk] at h
      injection h with h
      obtain ⟨k1, v1⟩ := kv
      simp only at hk h
      subst hk
      subst h
      exact List.mem_cons_self _ _
    · rw [if_neg hk] at h
      exact List.mem_cons_of_mem _ (ih h)

theorem mapSet_eq_append (d : List (Nat × Nat)) (k v : Nat) (h : k ∉ keys d) :
    mapSet d k v = d ++ [(k, v)] := by
  induction d with
  | nil => rfl
  | cons kv rest ih =>
    simp only [keys, List.map_cons, List.mem_cons] at h
    push_neg at h
    rw [show mapSet (kv :: rest) k v = if kv.1 = k then (k, v) :: rest
        else kv :: mapSet rest k v from rfl]
    rw [if_neg (fun hh => h.1 hh.symm), ih (by simpa [keys] using h.2), List.cons_append]

theorem mapErase_append_self (d : List (Nat × Nat)) (k v : Nat) (h : k ∉ keys d) :
    mapErase (d ++ [(k, v)]) k = d := by
  induction d with
  | nil => simp [mapErase]
  | cons kv rest ih =>
    simp only [keys, List.map_cons, List.mem_cons] at h
    push_neg at h
    rw [List.cons_append, show mapErase (kv :: (rest ++ [(k, v)])) k =
        if kv.1 = k then rest ++ [(k, v)] else kv :: mapErase (rest ++ [(k, v)]) k from rfl]
    rw [if_neg (fun hh => h.1 hh.symm), ih (by simpa [keys] using h.2)]

theorem lookupA_append_self (d : List (Nat × Nat)) (k v : Nat) (h : k ∉ keys d) :
    lookupA (d ++ [(k, v)]) k = some v := by
  induction d with
  | nil => simp [lookupA]
  | cons kv rest ih =>
    simp only [keys, List.map_cons, List.mem_cons] at h
    push_neg at h
    rw [List.cons_append, lookupA_cons, if_neg (fun hh => h.1 hh.symm)]
    exact ih (by simpa [keys] using h.2)

theorem mapErase_sublist (d : List (Nat × Nat)) (k : Nat) : (mapErase d k).Sublist d := by
  induction d with
  | nil => simp [mapErase]
  | cons kv rest ih =>
    rw [show mapErase (kv :: rest) k =
        if kv.1 = k then rest else kv :: mapErase rest k from rfl]
    by_cases hk : kv.1 = k
    · rw [if_pos hk]
      exact List.sublist_cons_self _ _
    · rw [if_neg hk]
      exact ih.cons₂ _

theorem nodup_keys_mapErase (d : List (Nat × Nat)) (k : Nat)
    (h : (keys d).Nodup) : (keys (mapErase d k)).Nodup := by
  have : (keys (mapErase d k)).Sublist (keys d) := List.Sublist.map _ (mapErase_sublist d k)
  exact List.Nodup.sublist this h

theorem perm_mapErase (d : List (Nat × Nat)) (k v : Nat)
    (hd : (keys d).Nodup) (h : lookupA d k = some v) :
    d.Perm ((k, v) :: mapErase d k) := by
  induction d with
  | nil => simp [lookupA] at h
  | cons kv rest ih =>
    simp only [keys, List.map_cons, List.nodup_cons] at hd
    rw [lookupA_cons] at h
    rw [show mapErase (kv :: rest) k =
        if kv.1 = k then rest else kv :: mapErase rest k from rfl]
    by_cases hk : kv.1 = k
    · rw [if_pos hk] at h ⊢
      injection h with h
      obtain ⟨k1, v1⟩ := kv
      simp only at hk h
      subst hk
      subst h
      exact List.Perm.refl _
    · rw [if_neg hk] at h ⊢
      exact (List.Perm.cons kv (ih hd.2 h)).trans (List.Perm.swap _ _ _)

theorem mem_keys_mapSet (d : List (Nat × Nat)) (k v : Nat) (q : Nat) :
    q ∈ keys (mapSet d k v) ↔ q ∈ keys d ∨ q = k := by
  induction d with
  | nil => simp [mapSet, keys]
  | cons kv rest ih =>
    rw [show mapSet (kv :: rest) k v =
        if kv.1 = k then (k, v) :: rest else kv :: mapSet rest k v from rfl]
    by_cases hk : kv.1 = k
    · subst hk
      rw [if_pos rfl]
      simp only [keys, List.map_cons, List.mem_cons]
      tauto
    · rw [if_neg hk]
      simp only [keys, List.map_cons, List.mem_cons] at ih ⊢
      rw [ih]
      tauto

theorem nodup_keys_mapSet (d : List (Nat × Nat)) (k v : Nat)
    (h : (keys d).Nodup) : (keys (mapSet d k v)).Nodup := by
  induction d with
  | nil => simp [mapSet, keys]
  | cons kv rest ih =>
    simp only [keys, List.map_cons, List.nodup_cons] at h
    rw [show mapSet (kv :: rest) k v =
        if kv.1 = k then (k, v) :: rest else kv :: mapSet rest k v from rfl]
    by_cases hk : kv.1 = k
    · subst hk
      rw [if_pos rfl]
      simp only [keys, List.map_cons, List.nodup_cons]
      exact ⟨by simpa [keys] using h.1, h.2⟩
    · rw [if_neg hk]
      simp only [keys, List.map_cons, List.nodup_cons]
      refine ⟨?_, ih h.2⟩
      intro hmem
      rcases (mem_keys_mapSet rest k v kv.1).mp (by simpa [keys] using hmem) with hm | hm
      · exact h.1 (by simpa [keys] using hm)
      · exact hk hm

theorem exists_pow_of_land_pred (n : Nat) (hn : 0 < n) (h : n &&& (n - 1) = 0) :
    ∃ k, n = 2 ^ k := by
  refine ⟨Nat.log 2 n, ?_⟩
  by_contra hne
  have h1 : 2 ^ Nat.log 2 n ≤ n := Nat.pow_log_le_self 2 (by omega)
  have h2 : n < 2 ^ (Nat.log 2 n + 1) := Nat.lt_pow_succ_log_self (by norm_num) n
  set k := Nat.log 2 n with hkdef
  have hlt : 2 ^ k < n := lt_of_le_of_ne h1 (fun he => hne he.symm)
  have hp : 0 < 2 ^ k := Nat.pos_pow_of_pos k (by norm_num)
  have hpow : (2 : Nat) ^ (k + 1) = 2 ^ k * 2 := by ring
  have hdn : n / 2 ^ k = 1 := by
    have ha : 1 ≤ n / 2 ^ k := (Nat.le_div_iff_mul_le hp).mpr (by omega)
    have hb : n / 2 ^ k < 2 := (Nat.div_lt_iff_lt_mul hp).mpr (by omega)
    omega
  have hdm : (n - 1) / 2 ^ k = 1 := by
    have ha : 1 ≤ (n - 1) / 2 ^ k := (Nat.le_div_iff_mul_le hp).mpr (by omega)
    have hb : (n - 1) / 2 ^ k < 2 := (Nat.div_lt_iff_lt_mul hp).mpr (by omega)
    omega
  have htn : n.testBit k = true := by
    simp [Nat.testBit_to_div_mod, hdn]
  have htm : (n - 1).testBit k = true := by
    simp [Nat.testBit_to_div_mod, hdm]
  have hland := Nat.testBit_land n (n - 1) k
  rw [h, htn, htm, Nat.zero_testBit] at hland
  simp at hland

theorem land_pred_of_pow (k : Nat) : (2 ^ k) &&& (2 ^ k - 1) = 0 := by
  apply Nat.eq_of_testBit_eq
  intro i
  rw [Nat.testBit_land, Nat.testBit_two_pow, Nat.testBit_two_pow_sub_one, Nat.zero_testBit]
  by_cases h : k = i
  · subst h
    simp
  · simp [h]

theorem npotLoop_pow (fuel : Nat) : ∀ (power size : Nat), (∃ j, power = 2 ^ j) →
    size ≤ power * 2 ^ fuel →
    ∃ k, npotLoop fuel power size = 2 ^ k ∧ size ≤ 2 ^ k := by
  induction fuel with
  | zero =>
    rintro power size ⟨j, rfl⟩ hle
    simp only [npotLoop]
    exact ⟨j, rfl, by simpa using hle⟩
  | succ fuel ih =>
    rintro power size ⟨j, rfl⟩ hle
    simp only [npotLoop]
    by_cases h : 2 ^ j < size
    · rw [if_pos h]
      apply ih (2 ^ j * 2) size ⟨j + 1, by ring⟩
      have : 2 ^ j * 2 ^ (fuel + 1) = 2 ^ j * 2 * 2 ^ fuel := by ring
      omega
    · rw [if_neg h]
      exact ⟨j, rfl, by omega⟩

theorem next_power_of_two_pow (n : Nat) (hn : 1 ≤ n) :
    ∃ k, next_power_of_two n = 2 ^ k ∧ n ≤ 2 ^ k := by
  unfold next_power_of_two
  by_cases h : n &&& (n - 1) = 0
  · obtain ⟨k, hk⟩ := exists_pow_of_land_pred n hn h
    rw [if_pos (by simpa using h)]
    exact ⟨k, hk, le_of_eq hk⟩
  · rw [if_neg (by simpa using h)]
    refine npotLoop_pow n 1 n ⟨0, rfl⟩ ?_
    have := Nat.lt_two_pow n
    omega

theorem next_power_of_two_pos (n : Nat) (hn : 1 ≤ n) : 1 ≤ next_power_of_two n := by
  obtain ⟨k, hk, hle⟩ := next_power_of_two_pow n hn
  rw [hk]
  exact Nat.one_le_two_pow

theorem xor_ne_self_of_pos (a s : Nat) (hs : 0 < s) : a ^^^ s ≠ a := by
  intro he
  have h0 : a ^^^ (a ^^^ s) = a ^^^ a := by rw [he]
  rw [← Nat.xor_assoc, Nat.xor_self, Nat.zero_xor] at h0
  omega

theorem xor_two_pow_of_even (j c : Nat) (hc : c % 2 = 0) :
    (c * 2 ^ j) ^^^ 2 ^ j = (c + 1) * 2 ^ j := by
  apply Nat.eq_of_testBit_eq
  intro i
  rw [Nat.testBit_xor, Nat.testBit_two_pow]
  rw [Nat.testBit_to_div_mod, Nat.testBit_to_div_mod]
  rcases lt_trichotomy i j with h | rfl | h
  · have hdvd2 : (2 : Nat) ∣ 2 ^ (j - i) := dvd_pow_self 2 (by omega)
    have hdiv : ∀ m : Nat, m * 2 ^ j / 2 ^ i = m * 2 ^ (j - i) := by
      intro m
      rw [Nat.mul_div_assoc m (pow_dvd_pow 2 (by omega : i ≤ j)), Nat.pow_div (by omega)
        (by norm_num)]
    rw [hdiv c, hdiv (c + 1)]
    have h1 : c * 2 ^ (j - i) % 2 = 0 :=
      Nat.mod_eq_zero_of_dvd (Dvd.dvd.mul_left hdvd2 c)
    have h2 : (c + 1) * 2 ^ (j - i) % 2 = 0 :=
      Nat.mod_eq_zero_of_dvd (Dvd.dvd.mul_left hdvd2 (c + 1))
    simp only [h1, h2]
    simp
    omega
  · have hdiv : ∀ m : Nat, m * 2 ^ i / 2 ^ i = m :=
      fun m => Nat.mul_div_cancel m (Nat.pos_pow_of_pos i (by norm_num))
    rw [hdiv c, hdiv (c + 1)]
    have h1 : (c + 1) % 2 = 1 := by omega
    simp only [hc, h1]
    simp
  · have hij : 1 ≤ i - j := by omega
    have hdiv : ∀ m : Nat, m * 2 ^ j / 2 ^ i = m / 2 ^ (i - j) := by
      intro m
      have he : (2 : Nat) ^ i = 2 ^ j * 2 ^ (i - j) := by
        rw [← pow_add]
        congr 1
        omega
      rw [he, mul_comm m (2 ^ j), Nat.mul_div_mul_left _ _ (Nat.pos_pow_of_pos j (by norm_num))]
    rw [hdiv c, hdiv (c + 1)]
    have he2 : (2 : Nat) ^ (i - j) = 2 * 2 ^ (i - j - 1) := by
      rw [← Nat.pow_succ']
      congr 1
      omega
    have hsame : (c + 1) / 2 ^ (i - j) = c / 2 ^ (i - j) := by
      rw [he2, ← Nat.div_div_eq_div_mul, ← Nat.div_div_eq_div_mul]
      have hh : (c + 1) / 2 = c / 2 := by omega
      rw [hh]
    rw [hsame]
    have hne : ¬(j = i) := by omega
    simp [hne]

theorem xor_two_pow_dvd (j a : Nat) (hdvd : 2 ^ j ∣ a) :
    (a / 2 ^ j % 2 = 0 ∧ a ^^^ 2 ^ j = a + 2 ^ j) ∨
    (a / 2 ^ j % 2 = 1 ∧ 2 ^ j ≤ a ∧ a ^^^ 2 ^ j = a - 2 ^ j) := by
  obtain ⟨c, rfl⟩ := hdvd
  have hp : 0 < 2 ^ j := Nat.pos_pow_of_pos j (by norm_num)
  have hdc : 2 ^ j * c / 2 ^ j = c := Nat.mul_div_cancel_left c hp
  by_cases hc : c % 2 = 0
  · left
    refine ⟨by rw [hdc]; exact hc, ?_⟩
    rw [mul_comm (2 ^ j) c, xor_two_pow_of_even j c hc]
    ring
  · right
    have hc1 : c % 2 = 1 := by omega
    have hcpos : 1 ≤ c := by omega
    have hle : 2 ^ j ≤ 2 ^ j * c := by
      calc 2 ^ j = 2 ^ j * 1 := by ring
        _ ≤ 2 ^ j * c := Nat.mul_le_mul_left _ hcpos
    refine ⟨by rw [hdc]; exact hc1, hle, ?_⟩
    have heven : (c - 1) % 2 = 0 := by omega
    have he : ((c - 1) * 2 ^ j) ^^^ 2 ^ j = c * 2 ^ j := by
      rw [xor_two_pow_of_even j (c - 1) heven]
      congr 1
      omega
    have hsub : 2 ^ j * c - 2 ^ j = (c - 1) * 2 ^ j := by
      cases c with
      | zero => simp
      | succ c0 =>
        simp only [Nat.succ_sub_one]
        rw [Nat.mul_succ, Nat.add_sub_cancel, mul_comm]
    rw [hsub, mul_comm (2 ^ j) c]
    calc (c * 2 ^ j) ^^^ 2 ^ j
        = (((c - 1) * 2 ^ j) ^^^ 2 ^ j) ^^^ 2 ^ j := by rw [he]
      _ = ((c - 1) * 2 ^ j) ^^^ (2 ^ j ^^^ 2 ^ j) := by rw [Nat.xor_assoc]
      _ = (c - 1) * 2 ^ j := by rw [Nat.xor_self, Nat.xor_zero]

theorem splitLoop_step (fl : List (Nat × List Nat)) (a s B : Nat) (h : s < B) :
    splitLoop fl a s B =
      splitLoop (dictAppend fl (B / 2) (a + B / 2)) a s (B / 2) := by
  rw [splitLoop]
  rw [dif_pos h]

theorem splitLoop_stop (fl : List (Nat × List Nat)) (a s B : Nat) (h : ¬s < B) :
    splitLoop fl a s B = fl := by
  rw [splitLoop]
  rw [dif_neg h]

theorem splitPieces_step (a s B : Nat) (h : s < B) :
    splitPieces a s B = (a + B / 2, B / 2) :: splitPieces a s (B / 2) := by
  rw [splitPieces]
  rw [dif_pos h]

theorem splitPieces_stop (a s B : Nat) (h : ¬s < B) : splitPieces a s B = [] := by
  rw [splitPieces]
  rw [dif_neg h]

theorem mergeLoop_stop (total : Nat) (fl : List (Nat × List Nat)) (a s : Nat)
    (h : ¬s < total) : mergeLoop total fl a s = (a, s, fl) := by
  rw [mergeLoop]
  rw [dif_neg h]

theorem mergeLoop_notfound (total : Nat) (fl : List (Nat × List Nat)) (a s : Nat)
    (hlt : s < total) (h : (a ^^^ s) ∉ dictGetD fl s) : mergeLoop total fl a s = (a, s, fl) := by
  rw [mergeLoop]
  rw [dif_pos hlt, dif_neg h]

theorem mergeLoop_found (total : Nat) (fl : List (Nat × List Nat)) (a s : Nat)
    (hlt : s < total) (h : (a ^^^ s) ∈ dictGetD fl s) :
    mergeLoop total fl a s =
      mergeLoop total (dictSet fl s ((dictGetD fl s).erase (a ^^^ s)))
        (min a (a ^^^ s)) (s * 2) := by
  rw [mergeLoop]
  rw [dif_pos hlt, dif_pos h]

theorem pySort_perm (l : List Nat) : (pySort l).Perm l := List.perm_insertionSort _ l

theorem pySort_sorted (l : List Nat) : List.Sorted (· ≤ ·) (pySort l) :=
  List.sorted_insertionSort _ l

theorem pySort_eq_of_sorted (l : List Nat) (h : List.Sorted (· ≤ ·) l) : pySort l = l :=
  List.eq_of_perm_of_sorted (pySort_perm l) (pySort_sorted l) h

theorem freeBlocks_dictAppend_perm (d : List (Nat × List Nat)) (k x : Nat) :
    (freeBlocks (dictAppend d k x)).Perm (freeBlocks d ++ [(x, k)]) := by
  refine List.perm_iff_count.mpr (fun p => ?_)
  have h := List.perm_iff_count.mp (freeBlocks_dictSet_perm d k (dictGetD d k ++ [x])) p
  simp only [List.count_append, List.map_append, dictAppend] at h ⊢
  simp only [List.map_cons, List.map_nil, List.count_append] at h
  omega

theorem two_pow_inj {i j : Nat} (h : (2 : Nat) ^ i = 2 ^ j) : i = j :=
  Nat.pow_right_injective (by norm_num) h

theorem splitLoop_getD (j : Nat) : ∀ (m : Nat) (fl : List (Nat × List Nat)) (a : Nat),
    j ≤ m →
    (∀ i, j ≤ i → i < m → dictGetD (splitLoop fl a (2 ^ j) (2 ^ m)) (2 ^ i)
        = dictGetD fl (2 ^ i) ++ [a + 2 ^ i]) ∧
    (∀ k, (∀ i, j ≤ i → i < m → k ≠ 2 ^ i) →
      dictGetD (splitLoop fl a (2 ^ j) (2 ^ m)) k = dictGetD fl k) := by
  intro m
  induction m with
  | zero =>
    intro fl a hj
    have hj0 : j = 0 := by omega
    subst hj0
    rw [splitLoop_stop _ _ _ _ (by omega)]
    exact ⟨fun i h1 h2 => by omega, fun k hk => rfl⟩
  | succ m ih =>
    intro fl a hj
    rcases Nat.lt_or_ge j (m + 1) with hjm | hjm
    · have hjm' : j ≤ m := by omega
      have hlt : (2 : Nat) ^ j < 2 ^ (m + 1) := Nat.pow_lt_pow_right (by norm_num) (by omega)
      have hhalf : (2 : Nat) ^ (m + 1) / 2 = 2 ^ m := by
        rw [pow_succ]
        exact Nat.mul_div_cancel _ (by norm_num)
      rw [splitLoop_step _ _ _ _ hlt, hhalf]
      obtain ⟨ihA, ihB⟩ := ih (dictAppend fl (2 ^ m) (a + 2 ^ m)) a hjm'
      constructor
      · intro i h1 h2
        rcases Nat.lt_or_ge i m with him | him
        · rw [ihA i h1 him, dictGetD_dictAppend_ne _ _ _
            (fun he => absurd (two_pow_inj he) (by omega))]
        · have hi : i = m := by omega
          subst hi
          rw [ihB (2 ^ i) (fun i' hi1 hi2 he => absurd (two_pow_inj he) (by omega)),
            dictGetD_dictAppend_self]
      · intro k hk
        rw [ihB k (fun i hi1 hi2 => hk i hi1 (by omega)),
          dictGetD_dictAppend_ne _ _ _ (hk m hjm' (by omega))]
    · have hj1 : j = m + 1 := by omega
      subst hj1
      rw [splitLoop_stop _ _ _ _ (by omega)]
      exact ⟨fun i h1 h2 => by omega, fun k hk => rfl⟩

theorem splitLoop_blocks_perm (j : Nat) : ∀ (m : Nat) (fl : List (Nat × List Nat)) (a : Nat),
    j ≤ m →
    (freeBlocks (splitLoop fl a (2 ^ j) (2 ^ m))).Perm
      (freeBlocks fl ++ splitPieces a (2 ^ j) (2 ^ m)) := by
  intro m
  induction m with
  | zero =>
    intro fl a hj
    have hj0 : j = 0 := by omega
    subst hj0
    rw [splitLoop_stop _ _ _ _ (by omega), splitPieces_stop _ _ _ (by omega),
      List.append_nil]
  | succ m ih =>
    intro fl a hj
    rcases Nat.lt_or_ge j (m + 1) with hjm | hjm
    · have hjm' : j ≤ m := by omega
      have hlt : (2 : Nat) ^ j < 2 ^ (m + 1) := Nat.pow_lt_pow_right (by norm_num) (by omega)
      have hhalf : (2 : Nat) ^ (m + 1) / 2 = 2 ^ m := by
        rw [pow_succ]
        exact Nat.mul_div_cancel _ (by norm_num)
      rw [splitLoop_step _ _ _ _ hlt, hhalf, splitPieces_step _ _ _ hlt, hhalf]
      have h1 := ih (dictAppend fl (2 ^ m) (a + 2 ^ m)) a hjm'
      have h2 := freeBlocks_dictAppend_perm fl (2 ^ m) (a + 2 ^ m)
      refine List.perm_iff_count.mpr (fun p => ?_)
      have c1 := List.perm_iff_count.mp h1 p
      have c2 := List.perm_iff_count.mp h2 p
      simp only [List.count_append, List.count_cons, List.count_nil] at c1 c2 ⊢
      omega
    · have hj1 : j = m + 1 := by omega
      subst hj1
      rw [splitLoop_stop _ _ _ _ (by omega), splitPieces_stop _ _ _ (by omega),
        List.append_nil]

theorem splitPieces_mem (j : Nat) : ∀ (m : Nat) (a : Nat), j ≤ m →
    ∀ p ∈ splitPieces a (2 ^ j) (2 ^ m), ∃ i, j ≤ i ∧ i < m ∧ p = (a + 2 ^ i, 2 ^ i) := by
  intro m
  induction m with
  | zero =>
    intro a hj p hp
    have hj0 : j = 0 := by omega
    subst hj0
    rw [splitPieces_stop _ _ _ (by omega)] at hp
    simp at hp
  | succ m ih =>
    intro a hj p hp
    rcases Nat.lt_or_ge j (m + 1) with hjm | hjm
    · have hjm' : j ≤ m := by omega
      have hlt : (2 : Nat) ^ j < 2 ^ (m + 1) := Nat.pow_lt_pow_right (by norm_num) (by omega)
      have hhalf : (2 : Nat) ^ (m + 1) / 2 = 2 ^ m := by
        rw [pow_succ]
        exact Nat.mul_div_cancel _ (by norm_num)
      rw [splitPieces_step _ _ _ hlt, hhalf] at hp
      rcases List.mem_cons.mp hp with rfl | hp
      · exact ⟨m, hjm', by omega, rfl⟩
      · obtain ⟨i, hi1, hi2, hi3⟩ := ih a hjm' p hp
        exact ⟨i, hi1, by omega, hi3⟩
    · have hj1 : j = m + 1 := by omega
      subst hj1
      rw [splitPieces_stop _ _ _ (by omega)] at hp
      simp at hp

theorem splitPieces_cover (j : Nat) : ∀ (m : Nat) (a : Nat), j ≤ m → ∀ x : Nat,
    List.countP (inBlk x) ((a, 2 ^ j) :: splitPieces a (2 ^ j) (2 ^ m)) =
      List.countP (inBlk x) [(a, 2 ^ m)] := by
  intro m
  induction m with
  | zero =>
    intro a hj x
    have hj0 : j = 0 := by omega
    subst hj0
    rw [splitPieces_stop _ _ _ (by omega)]
  | succ m ih =>
    intro a hj x
    rcases Nat.lt_or_ge j (m + 1) with hjm | hjm
    · have hjm' : j ≤ m := by omega
      have hlt : (2 : Nat) ^ j < 2 ^ (m + 1) := Nat.pow_lt_pow_right (by norm_num) (by omega)
      have hhalf : (2 : Nat) ^ (m + 1) / 2 = 2 ^ m := by
        rw [pow_succ]
        exact Nat.mul_div_cancel _ (by norm_num)
      rw [splitPieces_step _ _ _ hlt, hhalf]
      have hrec := ih a hjm' x
      have hpow : (2 : Nat) ^ (m + 1) = 2 ^ m + 2 ^ m := by
        rw [pow_succ]
        omega
      simp only [List.countP_cons, List.countP_nil, inBlk, decide_eq_true_eq] at hrec ⊢
      split_ifs at hrec ⊢ <;> omega
    · have hj1 : j = m + 1 := by omega
      subst hj1
      rw [splitPieces_stop _ _ _ (by omega)]

theorem mergeLoop_spec (total : Nat) (N : Nat) :
    ∀ (fl : List (Nat × List Nat)) (addr s : Nat), total - s ≤ N →
    (keys fl).Nodup →
    (∀ k, List.Sorted (· ≤ ·) (dictGetD fl k)) →
    (∀ k, ∀ y ∈ dictGetD fl k, (y ^^^ k) ∉ dictGetD fl k) →
    (∀ p ∈ freeBlocks fl, p.1 + p.2 ≤ total ∧ (∃ j, p.2 = 2 ^ j) ∧ p.2 ∣ p.1) →
    (∃ j, s = 2 ^ j) → s ∣ addr → addr + s ≤ total →
    ∀ a1 s1 fl1, mergeLoop total fl addr s = (a1, s1, fl1) →
    (keys fl1).Nodup ∧
    (∀ k, List.Sorted (· ≤ ·) (dictGetD fl1 k)) ∧
    (∀ k, ∀ y ∈ dictGetD fl1 k, (y ^^^ k) ∉ dictGetD fl1 k) ∧
    (∀ p ∈ freeBlocks fl1, p.1 + p.2 ≤ total ∧ (∃ j, p.2 = 2 ^ j) ∧ p.2 ∣ p.1) ∧
    (∃ j, s1 = 2 ^ j) ∧ s1 ∣ a1 ∧ a1 + s1 ≤ total ∧
    (∀ x, (freeBlocks fl1).countP (inBlk x) + List.countP (inBlk x) [(a1, s1)]
        = (freeBlocks fl).countP (inBlk x) + List.countP (inBlk x) [(addr, s)]) ∧
    (total ≤ s1 ∨ (a1 ^^^ s1) ∉ dictGetD fl1 s1) := by
  induction N with
  | zero =>
    intro fl addr s hN hk hsort hbud hblk hsj hdvd hbound a1 s1 fl1 heq
    rw [mergeLoop_stop _ _ _ _ (by omega)] at heq
    cases heq
    exact ⟨hk, hsort, hbud, hblk, hsj, hdvd, hbound, fun x => rfl, Or.inl (by omega)⟩
  | succ N ih =>
    intro fl addr s hN hk hsort hbud hblk hsj hdvd hbound a1 s1 fl1 heq
    by_cases hlt : s < total
    · by_cases hmem : (addr ^^^ s) ∈ dictGetD fl s
      · obtain ⟨j, rfl⟩ := hsj
        have hspos : (0 : Nat) < 2 ^ j := Nat.pos_pow_of_pos j (by norm_num)
        rw [mergeLoop_found _ _ _ _ hlt hmem] at heq
        have hbblk := hblk _ (mem_freeBlocks_of_dictGetD fl (2 ^ j) _ hmem)
        obtain ⟨hbbound, _, hbdvd⟩ := hbblk
        obtain ⟨c, rfl⟩ := hdvd
        have hdc : 2 ^ j * c / 2 ^ j = c := Nat.mul_div_cancel_left c hspos
        -- facts about the new free list
        have hk' := nodup_keys_dictSet fl (2 ^ j)
          ((dictGetD fl (2 ^ j)).erase (2 ^ j * c ^^^ 2 ^ j)) hk
        have hsort' : ∀ k, List.Sorted (· ≤ ·)
            (dictGetD (dictSet fl (2 ^ j)
              ((dictGetD fl (2 ^ j)).erase (2 ^ j * c ^^^ 2 ^ j))) k) := by
          intro k
          by_cases hkj : k = 2 ^ j
          · subst hkj
            rw [dictGetD_dictSet_self]
            exact List.Pairwise.sublist (List.erase_sublist _ _) (hsort _)
          · rw [dictGetD_dictSet_ne _ _ _ hkj]
            exact hsort k
        have hbud' : ∀ k, ∀ y ∈ dictGetD (dictSet fl (2 ^ j)
            ((dictGetD fl (2 ^ j)).erase (2 ^ j * c ^^^ 2 ^ j))) k,
            (y ^^^ k) ∉ dictGetD (dictSet fl (2 ^ j)
              ((dictGetD fl (2 ^ j)).erase (2 ^ j * c ^^^ 2 ^ j))) k := by
          intro k y hy hy2
          by_cases hkj : k = 2 ^ j
          · subst hkj
            rw [dictGetD_dictSet_self] at hy hy2
            exact hbud _ _ (List.erase_subset _ _ hy) (List.erase_subset _ _ hy2)
          · rw [dictGetD_dictSet_ne _ _ _ hkj] at hy hy2
            exact hbud _ _ hy hy2
        have hsubmem : ∀ p, p ∈ freeBlocks (dictSet fl (2 ^ j)
            ((dictGetD fl (2 ^ j)).erase (2 ^ j * c ^^^ 2 ^ j))) → p ∈ freeBlocks fl := by
          intro p hp
          have hperm := freeBlocks_dictSet_perm fl (2 ^ j)
            ((dictGetD fl (2 ^ j)).erase (2 ^ j * c ^^^ 2 ^ j))
          have h2 := hperm.mem_iff.mp (List.mem_append_left _ hp)
          rcases List.mem_append.mp h2 with h3 | h3
          · exact h3
          · obtain ⟨y, hy, rfl⟩ := List.mem_map.mp h3
            exact mem_freeBlocks_of_dictGetD fl (2 ^ j) y (List.erase_subset _ _ hy)
        have hblk' : ∀ p ∈ freeBlocks (dictSet fl (2 ^ j)
            ((dictGetD fl (2 ^ j)).erase (2 ^ j * c ^^^ 2 ^ j))),
            p.1 + p.2 ≤ total ∧ (∃ j0, p.2 = 2 ^ j0) ∧ p.2 ∣ p.1 :=
          fun p hp => hblk p (hsubmem p hp)
        -- pointwise count of the erased free list
        have hcnt' : ∀ x, (freeBlocks (dictSet fl (2 ^ j)
            ((dictGetD fl (2 ^ j)).erase (2 ^ j * c ^^^ 2 ^ j)))).countP (inBlk x)
            + List.countP (inBlk x) [(2 ^ j * c ^^^ 2 ^ j, 2 ^ j)]
            = (freeBlocks fl).countP (inBlk x) := by
          intro x
          have hperm := freeBlocks_dictSet_perm fl (2 ^ j)
            ((dictGetD fl (2 ^ j)).erase (2 ^ j * c ^^^ 2 ^ j))
          have hc := hperm.countP_eq (inBlk x)
          have hbp : (dictGetD fl (2 ^ j)).Perm
              ((2 ^ j * c ^^^ 2 ^ j) :: (dictGetD fl (2 ^ j)).erase (2 ^ j * c ^^^ 2 ^ j)) :=
            List.perm_cons_erase hmem
          have hcm := (hbp.map (fun a => (a, 2 ^ j))).countP_eq (inBlk x)
          simp only [List.countP_append, List.map_cons, List.countP_cons, List.countP_nil] at hc hcm ⊢
          omega
        have hs2 : (2 : Nat) ^ j * 2 = 2 ^ (j + 1) := by ring
        rcases xor_two_pow_dvd j (2 ^ j * c) ⟨c, rfl⟩ with ⟨hev, hxe⟩ | ⟨hod, hsle, hxe⟩
        · -- even case: the buddy is the next block to the right
          rw [hdc] at hev
          have hmin : min (2 ^ j * c) (2 ^ j * c ^^^ 2 ^ j) = 2 ^ j * c := by
            rw [hxe]
            omega
          rw [hmin, hs2] at heq
          have hdvd' : 2 ^ (j + 1) ∣ 2 ^ j * c := by
            refine ⟨c / 2, ?_⟩
            have hceven : c = 2 * (c / 2) := by omega
            calc 2 ^ j * c = 2 ^ j * (2 * (c / 2)) := by rw [← hceven]
              _ = 2 ^ (j + 1) * (c / 2) := by ring
          have hbound' : 2 ^ j * c + 2 ^ (j + 1) ≤ total := by
            rw [hxe] at hbbound
            have : (2 : Nat) ^ (j + 1) = 2 ^ j + 2 ^ j := by ring
            omega
          obtain ⟨hk1, hsort1, hbud1, hblk1, hsj1, hdvd1, hbound1, hcnt1, hexit1⟩ :=
            ih _ _ _ (by omega) hk' hsort' hbud' hblk' ⟨j + 1, rfl⟩ hdvd' hbound' a1 s1 fl1 heq
          refine ⟨hk1, hsort1, hbud1, hblk1, hsj1, hdvd1, hbound1, fun x => ?_, hexit1⟩
          have h1 := hcnt1 x
          have h2 := hcnt' x
          have hiv : List.countP (inBlk x) [(2 ^ j * c, 2 ^ (j + 1))]
              = List.countP (inBlk x) [(2 ^ j * c, 2 ^ j)]
              + List.countP (inBlk x) [(2 ^ j * c ^^^ 2 ^ j, 2 ^ j)] := by
            rw [hxe]
            simp only [List.countP_cons, List.countP_nil, inBlk, decide_eq_true_eq]
            have hp2 : (2 : Nat) ^ (j + 1) = 2 ^ j + 2 ^ j := by ring
            split_ifs <;> omega
          omega
        · -- odd case: the buddy is the previous block to the left
          rw [hdc] at hod
          have hmin : min (2 ^ j * c) (2 ^ j * c ^^^ 2 ^ j) = 2 ^ j * c - 2 ^ j := by
            rw [hxe]
            omega
          rw [hmin, hs2] at heq
          have hcpos : 1 ≤ c := by omega
          have hsub : 2 ^ j * c - 2 ^ j = 2 ^ j * (c - 1) := by
            cases c with
            | zero => omega
            | succ c0 =>
              simp only [Nat.succ_sub_one]
              rw [Nat.mul_succ, Nat.add_sub_cancel]
          have hdvd' : 2 ^ (j + 1) ∣ 2 ^ j * c - 2 ^ j := by
            rw [hsub]
            refine ⟨(c - 1) / 2, ?_⟩
            have hceven : c - 1 = 2 * ((c - 1) / 2) := by omega
            calc 2 ^ j * (c - 1) = 2 ^ j * (2 * ((c - 1) / 2)) := by rw [← hceven]
              _ = 2 ^ (j + 1) * ((c - 1) / 2) := by ring
          have hbound' : (2 ^ j * c - 2 ^ j) + 2 ^ (j + 1) ≤ total := by
            have : (2 : Nat) ^ (j + 1) = 2 ^ j + 2 ^ j := by ring
            omega
          obtain ⟨hk1, hsort1, hbud1, hblk1, hsj1, hdvd1, hbound1, hcnt1, hexit1⟩ :=
            ih _ _ _ (by omega) hk' hsort' hbud' hblk' ⟨j + 1, rfl⟩ hdvd' hbound' a1 s1 fl1 heq
          refine ⟨hk1, hsort1, hbud1, hblk1, hsj1, hdvd1, hbound1, fun x => ?_, hexit1⟩
          have h1 := hcnt1 x
          have h2 := hcnt' x
          have hiv : List.countP (inBlk x) [(2 ^ j * c - 2 ^ j, 2 ^ (j + 1))]
              = List.countP (inBlk x) [(2 ^ j * c, 2 ^ j)]
              + List.countP (inBlk x) [(2 ^ j * c ^^^ 2 ^ j, 2 ^ j)] := by
            rw [hxe]
            simp only [List.countP_cons, List.countP_nil, inBlk, decide_eq_true_eq]
            have hp2 : (2 : Nat) ^ (j + 1) = 2 ^ j + 2 ^ j := by ring
            split_ifs <;> omega
          omega
      · rw [mergeLoop_notfound _ _ _ _ hlt hmem] at heq
        cases heq
        exact ⟨hk, hsort, hbud, hblk, hsj, hdvd, hbound, fun x => rfl, Or.inr hmem⟩
    · rw [mergeLoop_stop _ _ _ _ hlt] at heq
      cases heq
      exact ⟨hk, hsort, hbud, hblk, hsj, hdvd, hbound, fun x => rfl, Or.inl (by omega)⟩

theorem allocLoop_nil (b : BuddySystem) (size : Nat) :
    allocLoop b size [] = (Except.error AllocError.noSuitableBlock, b) := rfl

theorem allocLoop_cons_skip_small (b : BuddySystem) (size bs : Nat) (rest : List Nat)
    (h : ¬size ≤ bs) : allocLoop b size (bs :: rest) = allocLoop b size rest := by
  simp [allocLoop, h]

theorem allocLoop_cons_skip_empty (b : BuddySystem) (size bs : Nat) (rest : List Nat)
    (h1 : size ≤ bs) (h2 : dictGetD b.free_list bs = []) :
    allocLoop b size (bs :: rest) = allocLoop b size rest := by
  simp [allocLoop, h1, h2]

theorem allocLoop_cons_take (b : BuddySystem) (size bs : Nat) (rest : List Nat)
    (a : Nat) (tl : List Nat) (h1 : size ≤ bs) (h2 : dictGetD b.free_list bs = a :: tl) :
    allocLoop b size (bs :: rest) =
      (Except.ok a,
       { total_memory := b.total_memory,
         free_list := splitLoop (dictSet b.free_list bs tl) a size bs,
         allocated := mapSet b.allocated a size }) := by
  simp [allocLoop, h1, h2]

theorem allocLoop_error_iff (b : BuddySystem) (size : Nat) (e : AllocError) :
    ∀ ks : List Nat, (allocLoop b size ks).1 = Except.error e ↔
      (e = AllocError.noSuitableBlock ∧ ∀ k ∈ ks, size ≤ k → dictGetD b.free_list k = []) := by
  intro ks
  induction ks with
  | nil =>
    rw [allocLoop_nil]
    simp only [List.not_mem_nil]
    constructor
    · intro h
      injection h with h
      exact ⟨h.symm, by tauto⟩
    · rintro ⟨rfl, h⟩
      rfl
  | cons bs rest ih =>
    by_cases hsz : size ≤ bs
    · cases hbl : dictGetD b.free_list bs with
      | nil =>
        rw [allocLoop_cons_skip_empty b size bs rest hsz hbl, ih]
        constructor
        · rintro ⟨rfl, h⟩
          refine ⟨rfl, fun k hk hsk => ?_⟩
          rcases List.mem_cons.mp hk with rfl | hk
          · exact hbl
          · exact h k hk hsk
        · rintro ⟨rfl, h⟩
          exact ⟨rfl, fun k hk hsk => h k (List.mem_cons_of_mem _ hk) hsk⟩
      | cons a tl =>
        rw [allocLoop_cons_take b size bs rest a tl hsz hbl]
        simp only []
        constructor
        · intro h
          injection h
        · rintro ⟨rfl, h⟩
          have := h bs (List.mem_cons_self _ _) hsz
          rw [hbl] at this
          exact absurd this (by simp)
    · rw [allocLoop_cons_skip_small b size bs rest hsz, ih]
      constructor
      · rintro ⟨rfl, h⟩
        refine ⟨rfl, fun k hk hsk => ?_⟩
        rcases List.mem_cons.mp hk with rfl | hk
        · omega
        · exact h k hk hsk
      · rintro ⟨rfl, h⟩
        exact ⟨rfl, fun k hk hsk => h k (List.mem_cons_of_mem _ hk) hsk⟩

theorem allocLoop_error_state (b : BuddySystem) (size : Nat) :
    ∀ (ks : List Nat) (e : AllocError), (allocLoop b size ks).1 = Except.error e →
      (allocLoop b size ks).2 = b := by
  intro ks
  induction ks with
  | nil =>
    intro e h
    rfl
  | cons bs rest ih =>
    intro e h
    by_cases hsz : size ≤ bs
    · cases hbl : dictGetD b.free_list bs with
      | nil =>
        rw [allocLoop_cons_skip_empty b size bs rest hsz hbl] at h ⊢
        exact ih e h
      | cons a tl =>
        rw [allocLoop_cons_take b size bs rest a tl hsz hbl] at h
        injection h
    · rw [allocLoop_cons_skip_small b size bs rest hsz] at h ⊢
      exact ih e h

theorem allocLoop_ok_spec (b : BuddySystem) (size : Nat) :
    ∀ (ks : List Nat) (a : Nat) (b' : BuddySystem),
      allocLoop b size ks = (Except.ok a, b') →
      ∃ B tl l1 l2, ks = l1 ++ B :: l2 ∧
        (∀ k ∈ l1, ¬(size ≤ k ∧ dictGetD b.free_list k ≠ [])) ∧
        size ≤ B ∧ dictGetD b.free_list B = a :: tl ∧
        b' = { total_memory := b.total_memory,
               free_list := splitLoop (dictSet b.free_list B tl) a size B,
               allocated := mapSet b.allocated a size } := by
  intro ks
  induction ks with
  | nil =>
    intro a b' heq
    rw [allocLoop_nil] at heq
    injection heq with h1 h2
    injection h1
  | cons bs rest ih =>
    intro a b' heq
    by_cases hsz : size ≤ bs
    · cases hbl : dictGetD b.free_list bs with
      | nil =>
        rw [allocLoop_cons_skip_empty b size bs rest hsz hbl] at heq
        obtain ⟨B, tl, l1, l2, hks, hl1, hB, hgB, hb'⟩ := ih a b' heq
        refine ⟨B, tl, bs :: l1, l2, by rw [hks, List.cons_append], ?_, hB, hgB, hb'⟩
        intro k hk
        rcases List.mem_cons.mp hk with rfl | hk
        · intro hcon
          exact hcon.2 hbl
        · exact hl1 k hk
      | cons a0 tl0 =>
        rw [allocLoop_cons_take b size bs rest a0 tl0 hsz hbl] at heq
        injection heq with h1 h2
        injection h1 with h1
        subst h1
        subst h2
        exact ⟨bs, tl0, [], rest, rfl, by simp, hsz, hbl, rfl⟩
    · rw [allocLoop_cons_skip_small b size bs rest hsz] at heq
      obtain ⟨B, tl, l1, l2, hks, hl1, hB, hgB, hb'⟩ := ih a b' heq
      refine ⟨B, tl, bs :: l1, l2, by rw [hks, List.cons_append], ?_, hB, hgB, hb'⟩
      intro k hk
      rcases List.mem_cons.mp hk with rfl | hk
      · intro hcon
        exact hsz hcon.1
      · exact hl1 k hk

theorem allocate_ok_spec (b : BuddySystem) (n a : Nat) (b' : BuddySystem)
    (heq : allocate b n = (Except.ok a, b')) :
    next_power_of_two n ≤ b.total_memory ∧
    ∃ B tl, next_power_of_two n ≤ B ∧ dictGetD b.free_list B = a :: tl ∧
      (∀ k, next_power_of_two n ≤ k → k < B → dictGetD b.free_list k = []) ∧
      b' = { total_memory := b.total_memory,
             free_list := splitLoop (dictSet b.free_list B tl) a (next_power_of_two n) B,
             allocated := mapSet b.allocated a (next_power_of_two n) } := by
  rw [allocate] at heq
  by_cases hg : b.total_memory < next_power_of_two n
  · rw [if_pos hg] at heq
    injection heq with h1 h2
    injection h1
  · rw [if_neg hg] at heq
    refine ⟨by omega, ?_⟩
    obtain ⟨B, tl, l1, l2, hks, hl1, hB, hgB, hb'⟩ :=
      allocLoop_ok_spec b (next_power_of_two n) _ a b' heq
    refine ⟨B, tl, hB, hgB, ?_, hb'⟩
    intro k hsk hkB
    by_contra hne
    have hmemk : k ∈ keys b.free_list := mem_keys_of_dictGetD_ne_nil _ _ hne
    have hmem2 : k ∈ pySort (keys b.free_list) :=
      (pySort_perm (keys b.free_list)).mem_iff.mpr hmemk
    rw [hks] at hmem2
    have hsorted := pySort_sorted (keys b.free_list)
    rw [hks] at hsorted
    rcases List.mem_append.mp hmem2 with hm | hm
    · exact hl1 k hm ⟨hsk, hne⟩
    · rcases List.mem_cons.mp hm with rfl | hm
      · omega
      · have hple := List.pairwise_append.mp hsorted
        have hBk : B ≤ k := (List.pairwise_cons.mp hple.2.1).1 k hm
        omega

theorem allocate_rtl_iff (b : BuddySystem) (n : Nat) :
    (allocate b n).1 = Except.error AllocError.requestTooLarge ↔
      b.total_memory < next_power_of_two n := by
  rw [allocate]
  by_cases hg : b.total_memory < next_power_of_two n
  · rw [if_pos hg]
    simp [hg]
  · rw [if_neg hg]
    simp only [iff_false, hg]
    intro h
    obtain ⟨he, _⟩ := (allocLoop_error_iff b (next_power_of_two n)
      AllocError.requestTooLarge _).mp h
    injection he

theorem allocate_nsb_iff (b : BuddySystem) (n : Nat)
    (hle : next_power_of_two n ≤ b.total_memory) :
    (allocate b n).1 = Except.error AllocError.noSuitableBlock ↔
      ∀ B, next_power_of_two n ≤ B → dictGetD b.free_list B = [] := by
  rw [allocate]
  rw [if_neg (by omega)]
  rw [allocLoop_error_iff b (next_power_of_two n) AllocError.noSuitableBlock _]
  constructor
  · rintro ⟨-, h⟩
    intro B hB
    by_cases hne : dictGetD b.free_list B = []
    · exact hne
    · exact h B ((pySort_perm (keys b.free_list)).mem_iff.mpr
        (mem_keys_of_dictGetD_ne_nil _ _ hne)) hB
  · intro h
    exact ⟨rfl, fun k _ hk => h k hk⟩

theorem allocate_error_state (b : BuddySystem) (n : Nat) (e : AllocError)
    (h : (allocate b n).1 = Except.error e) : (allocate b n).2 = b := by
  rw [allocate] at h ⊢
  by_cases hg : b.total_memory < next_power_of_two n
  · rw [if_pos hg]
  · rw [if_neg hg] at h ⊢
    exact allocLoop_error_state b (next_power_of_two n) _ e h

theorem free_rtl (b : BuddySystem) (addr n : Nat)
    (h : b.total_memory < next_power_of_two n) :
    free b addr n = (Except.error AllocError.requestTooLarge, b) := by
  simp [free, h]

theorem free_invalid_none (b : BuddySystem) (addr n : Nat)
    (hg : ¬b.total_memory < next_power_of_two n)
    (hl : lookupA b.allocated addr = none) :
    free b addr n = (Except.error AllocError.invalidFree, b) := by
  simp [free, hg, hl]

theorem free_invalid_mismatch (b : BuddySystem) (addr n s0 : Nat)
    (hg : ¬b.total_memory < next_power_of_two n)
    (hl : lookupA b.allocated addr = some s0) (hne : s0 ≠ next_power_of_two n) :
    free b addr n = (Except.error AllocError.invalidFree, b) := by
  simp [free, hg, hl, hne]

theorem free_ok_eq (b : BuddySystem) (addr n : Nat)
    (hg : ¬b.total_memory < next_power_of_two n)
    (hl : lookupA b.allocated addr = some (next_power_of_two n)) :
    free b addr n = (Except.ok (),
      { total_memory := b.total_memory,
        free_list :=
          dictSet (mergeLoop b.total_memory b.free_list addr (next_power_of_two n)).2.2
            (mergeLoop b.total_memory b.free_list addr (next_power_of_two n)).2.1
            (pySort
              (dictGetD (mergeLoop b.total_memory b.free_list addr (next_power_of_two n)).2.2
                  (mergeLoop b.total_memory b.free_list addr (next_power_of_two n)).2.1
                ++ [(mergeLoop b.total_memory b.free_list addr (next_power_of_two n)).1])),
        allocated := mapErase b.allocated addr }) := by
  simp [free, hg, hl]

theorem splitLoop_nodup_keys (a s : Nat) : ∀ (B : Nat) (fl : List (Nat × List Nat)),
    (keys fl).Nodup → (keys (splitLoop fl a s B)).Nodup := by
  intro B
  induction B using Nat.strong_induction_on with
  | _ B ih =>
    intro fl h
    by_cases hlt : s < B
    · rw [splitLoop_step _ _ _ _ hlt]
      exact ih (B / 2) (Nat.div_lt_self (by omega) (by norm_num)) _
        (nodup_keys_dictSet _ _ _ h)
    · rw [splitLoop_stop _ _ _ _ hlt]
      exact h

theorem buddyInv_init (k : Nat) : BuddyInv (mkBuddy (2 ^ k)) := by
  have hp : (0 : Nat) < 2 ^ k := Nat.pos_pow_of_pos k (by norm_num)
  refine ⟨⟨k, rfl⟩, ?_, ?_, ?_, ?_, ?_, ?_⟩
  · intro x hx
    simp only [mkBuddy, allBlocks, freeBlocks] at hx ⊢
    simp [List.countP_cons, inBlk, hx]
  · intro p hp2
    simp only [mkBuddy, allBlocks, freeBlocks] at hp2 ⊢
    simp at hp2
    subst hp2
    exact ⟨by omega, ⟨k, rfl⟩, dvd_zero _⟩
  · simp [mkBuddy, keys]
  · simp [mkBuddy, keys]
  · intro q
    simp only [mkBuddy]
    rw [dictGetD_cons]
    by_cases hq : 2 ^ k = q
    · rw [if_pos hq]
      simp
    · rw [if_neg hq]
      simp [dictGetD]
  · intro q y hy
    simp only [mkBuddy] at hy ⊢
    rw [dictGetD_cons] at hy ⊢
    by_cases hq : 2 ^ k = q
    · rw [if_pos hq] at hy ⊢
      simp at hy
      subst hy
      rw [Nat.zero_xor, ← hq]
      intro hmem
      simp at hmem
    · rw [if_neg hq] at hy
      simp [dictGetD] at hy

theorem buddyInv_allocate (b b' : BuddySystem) (n a : Nat) (hI : BuddyInv b)
    (hn : 1 ≤ n) (heq : allocate b n = (Except.ok a, b')) : BuddyInv b' := by
  obtain ⟨⟨kT, hkT⟩, hcount, hblk, hndF, hndA, hsort, hbud⟩ := hI
  obtain ⟨j, hsj, hnle⟩ := next_power_of_two_pow n hn
  obtain ⟨hTle, B, tl, hB, hgB, hbetween, hb'⟩ := allocate_ok_spec b n a b' heq
  rw [hsj] at hTle hB hbetween hb'
  have hmemaB : (a, B) ∈ freeBlocks b.free_list :=
    mem_freeBlocks_of_dictGetD _ B a (by rw [hgB]; exact List.mem_cons_self _ _)
  obtain ⟨haBbound, ⟨m, hBm⟩, hBdvda⟩ :=
    hblk (a, B) (List.mem_append_left _ hmemaB)
  simp only [] at haBbound hBdvda hBm
  rw [hBm] at hB hgB hbetween hb' haBbound hBdvda hmemaB
  subst hb'
  have hjm : j ≤ m := by
    have := Nat.pow_le_pow_iff_right (a := 2) (by norm_num) |>.mp hB
    omega
  have hfresh : lookupA b.allocated a = none := by
    cases hlf : lookupA b.allocated a with
    | none => rfl
    | some s2 =>
      exfalso
      have hmem2 : (a, s2) ∈ b.allocated := lookupA_some_mem _ _ _ hlf
      obtain ⟨-, ⟨j2, hj2⟩, -⟩ := hblk (a, s2) (List.mem_append_right _ hmem2)
      have hpm : (0 : Nat) < 2 ^ m := Nat.pos_pow_of_pos m (by norm_num)
      have hpj2 : (0 : Nat) < s2 := by
        simp only [] at hj2
        rw [hj2]
        exact Nat.pos_pow_of_pos j2 (by norm_num)
      have haT : a < b.total_memory := by omega
      have hc := hcount a haT
      have h1 : 0 < (freeBlocks b.free_list).countP (inBlk a) := by
        refine List.countP_pos_iff.mpr ⟨(a, 2 ^ m), hmemaB, ?_⟩
        simp only [inBlk, decide_eq_true_eq]
        omega
      have h2 : 0 < (b.allocated).countP (inBlk a) := by
        refine List.countP_pos_iff.mpr ⟨(a, s2), hmem2, ?_⟩
        simp only [inBlk, decide_eq_true_eq]
        omega
      rw [allBlocks, List.countP_append] at hc
      omega
  have hanotin : a ∉ keys b.allocated := (lookupA_eq_none_iff _ _).mp hfresh
  have hmapset : mapSet b.allocated a (2 ^ j) = b.allocated ++ [(a, 2 ^ j)] :=
    mapSet_eq_append _ _ _ hanotin
  have hfl1B : dictGetD (dictSet b.free_list (2 ^ m) tl) (2 ^ m) = tl :=
    dictGetD_dictSet_self _ _ _
  have hfl1ne : ∀ q, q ≠ 2 ^ m →
      dictGetD (dictSet b.free_list (2 ^ m) tl) q = dictGetD b.free_list q :=
    fun q hq => dictGetD_dictSet_ne _ _ _ hq
  obtain ⟨hsplitA, hsplitB⟩ := splitLoop_getD j m (dictSet b.free_list (2 ^ m) tl) a hjm
  have hfl1mem : ∀ p, p ∈ freeBlocks (dictSet b.free_list (2 ^ m) tl) →
      p ∈ freeBlocks b.free_list := by
    intro p hp
    have hperm := freeBlocks_dictSet_perm b.free_list (2 ^ m) tl
    have h2 := hperm.mem_iff.mp (List.mem_append_left _ hp)
    rcases List.mem_append.mp h2 with h3 | h3
    · exact h3
    · obtain ⟨y, hy, rfl⟩ := List.mem_map.mp h3
      exact mem_freeBlocks_of_dictGetD _ _ y (by rw [hgB]; exact List.mem_cons_of_mem _ hy)
  have hsplitmem : ∀ p,
      p ∈ freeBlocks (splitLoop (dictSet b.free_list (2 ^ m) tl) a (2 ^ j) (2 ^ m)) →
      p ∈ freeBlocks b.free_list ∨ ∃ i, j ≤ i ∧ i < m ∧ p = (a + 2 ^ i, 2 ^ i) := by
    intro p hp
    have hperm := splitLoop_blocks_perm j m (dictSet b.free_list (2 ^ m) tl) a hjm
    rcases List.mem_append.mp (hperm.mem_iff.mp hp) with h3 | h3
    · exact Or.inl (hfl1mem p h3)
    · exact Or.inr (splitPieces_mem j m a hjm p h3)
  refine ⟨⟨kT, hkT⟩, ?_, ?_, ?_, ?_, ?_, ?_⟩
  · -- exact cover
    intro x hx
    have hc := hcount x hx
    rw [allBlocks, List.countP_append] at hc
    simp only [allBlocks, hmapset]
    have c1 := (splitLoop_blocks_perm j m (dictSet b.free_list (2 ^ m) tl) a hjm).countP_eq
      (inBlk x)
    have c2 := (freeBlocks_dictSet_perm b.free_list (2 ^ m) tl).countP_eq (inBlk x)
    have c3 := splitPieces_cover j m a hjm x
    rw [hgB] at c2
    simp only [List.countP_append, List.map_cons, List.countP_cons, List.countP_nil]
      at c1 c2 c3 ⊢
    omega
  · -- block facts
    intro p hp
    simp only [allBlocks, hmapset] at hp
    rcases List.mem_append.mp hp with hpf | hpa
    · rcases hsplitmem p hpf with hold | ⟨i, hi1, hi2, rfl⟩
      · exact hblk p (List.mem_append_left _ hold)
      · have h1 : (2 : Nat) ^ i + 2 ^ i ≤ 2 ^ m := by
          have h2 : (2 : Nat) ^ (i + 1) ≤ 2 ^ m :=
            Nat.pow_le_pow_right (by norm_num) (by omega)
          have h3 : (2 : Nat) ^ (i + 1) = 2 ^ i + 2 ^ i := by ring
          omega
        refine ⟨?_, ⟨i, rfl⟩, ?_⟩
        · simp only []
          omega
        · simp only []
          exact dvd_add (dvd_trans (pow_dvd_pow 2 (by omega : i ≤ m)) hBdvda) (dvd_refl _)
    · rcases List.mem_append.mp hpa with hpa | hpa
      · exact hblk p (List.mem_append_right _ hpa)
      · simp at hpa
        subst hpa
        have h1 : (2 : Nat) ^ j ≤ 2 ^ m := Nat.pow_le_pow_right (by norm_num) hjm
        exact ⟨by simp only []; omega, ⟨j, rfl⟩, dvd_trans (pow_dvd_pow 2 hjm) hBdvda⟩
  · exact splitLoop_nodup_keys a (2 ^ j) (2 ^ m) _ (nodup_keys_dictSet _ _ _ hndF)
  · simp only [hmapset, keys, List.map_append, List.map_cons, List.map_nil]
    rw [List.nodup_append]
    refine ⟨hndA, List.nodup_singleton a, ?_⟩
    intro y hy hy2
    simp at hy2
    subst hy2
    exact hanotin hy
  · intro q
    simp only []
    by_cases hq : ∃ i, j ≤ i ∧ i < m ∧ q = 2 ^ i
    · obtain ⟨i, hi1, hi2, rfl⟩ := hq
      rw [hsplitA i hi1 hi2, hfl1ne _ (fun he => absurd (two_pow_inj he) (by omega)),
        hbetween _ (Nat.pow_le_pow_right (by norm_num) hi1)
          (Nat.pow_lt_pow_right (by norm_num) hi2)]
      simp
    · push_neg at hq
      rw [hsplitB q (fun i h1 h2 => hq i h1 h2)]
      by_cases hqB : q = 2 ^ m
      · subst hqB
        rw [hfl1B]
        have hs2 := hsort (2 ^ m)
        rw [hgB] at hs2
        exact hs2.of_cons
      · rw [hfl1ne _ hqB]
        exact hsort q
  · intro q y hy hy2
    simp only [] at hy hy2
    by_cases hq : ∃ i, j ≤ i ∧ i < m ∧ q = 2 ^ i
    · obtain ⟨i, hi1, hi2, rfl⟩ := hq
      rw [hsplitA i hi1 hi2, hfl1ne _ (fun he => absurd (two_pow_inj he) (by omega)),
        hbetween _ (Nat.pow_le_pow_right (by norm_num) hi1)
          (Nat.pow_lt_pow_right (by norm_num) hi2)] at hy hy2
      simp at hy hy2
      subst hy
      exact xor_ne_self_of_pos (a + 2 ^ i) (2 ^ i) (Nat.pos_pow_of_pos i (by norm_num)) hy2
    · push_neg at hq
      rw [hsplitB q (fun i h1 h2 => hq i h1 h2)] at hy hy2
      by_cases hqB : q = 2 ^ m
      · subst hqB
        rw [hfl1B] at hy hy2
        have hb2 := hbud (2 ^ m) y (by rw [hgB]; exact List.mem_cons_of_mem _ hy)
        rw [hgB] at hb2
        exact hb2 (List.mem_cons_of_mem _ hy2)
      · rw [hfl1ne _ hqB] at hy hy2
        exact hbud q y hy hy2

theorem xor_cancel_right (u v : Nat) : (u ^^^ v) ^^^ v = u := by
  rw [Nat.xor_assoc, Nat.xor_self, Nat.xor_zero]

theorem buddyInv_free (b b' : BuddySystem) (addr n : Nat) (hI : BuddyInv b)
    (hn : 1 ≤ n) (heq : free b addr n = (Except.ok (), b')) : BuddyInv b' := by
  obtain ⟨⟨kT, hkT⟩, hcount, hblk, hndF, hndA, hsort, hbud⟩ := hI
  obtain ⟨j, hsj, hnle⟩ := next_power_of_two_pow n hn
  by_cases hg : b.total_memory < next_power_of_two n
  · rw [free_rtl _ _ _ hg] at heq
    injection heq with h1 h2
    injection h1
  cases hl : lookupA b.allocated addr with
  | none =>
    rw [free_invalid_none _ _ _ hg hl] at heq
    injection heq with h1 h2
    injection h1
  | some s0 =>
    by_cases hne : s0 ≠ next_power_of_two n
    · rw [free_invalid_mismatch _ _ _ _ hg hl hne] at heq
      injection heq with h1 h2
      injection h1
    push_neg at hne
    subst hne
    rw [free_ok_eq _ _ _ hg hl] at heq
    injection heq with h1 h2
    clear h1
    rcases hm : mergeLoop b.total_memory b.free_list addr (next_power_of_two n)
      with ⟨a1, s1, fl1⟩
    rw [hm] at h2
    simp only [] at h2
    subst h2
    have hmemA : (addr, next_power_of_two n) ∈ b.allocated := lookupA_some_mem _ _ _ hl
    obtain ⟨hbound0, -, hdvd0⟩ := hblk _ (List.mem_append_right _ hmemA)
    simp only [] at hbound0 hdvd0
    have hblkF : ∀ p ∈ freeBlocks b.free_list,
        p.1 + p.2 ≤ b.total_memory ∧ (∃ j0, p.2 = 2 ^ j0) ∧ p.2 ∣ p.1 :=
      fun p hp => hblk p (List.mem_append_left _ hp)
    obtain ⟨hk1, hsort1, hbud1, hblk1, ⟨j1, hsj1⟩, hdvd1, hbound1, hcnt1, hexit1⟩ :=
      mergeLoop_spec b.total_memory b.total_memory b.free_list addr (next_power_of_two n)
        (by omega) hndF hsort hbud hblkF ⟨j, hsj⟩ (by rw [hsj] at hdvd0 ⊢; exact hdvd0)
        hbound0 a1 s1 fl1 hm
    have hs1pos : (0 : Nat) < s1 := by
      rw [hsj1]
      exact Nat.pos_pow_of_pos j1 (by norm_num)
    have hperma : b.allocated.Perm ((addr, next_power_of_two n) :: mapErase b.allocated addr) :=
      perm_mapErase _ _ _ hndA hl
    have hbsort : List.Sorted (· ≤ ·) (pySort (dictGetD fl1 s1 ++ [a1])) :=
      pySort_sorted _
    have hbperm : (pySort (dictGetD fl1 s1 ++ [a1])).Perm (dictGetD fl1 s1 ++ [a1]) :=
      pySort_perm _
    refine ⟨⟨kT, hkT⟩, ?_, ?_, ?_, ?_, ?_, ?_⟩
    · -- exact cover
      intro x hx
      have hc := hcount x hx
      rw [allBlocks, List.countP_append] at hc
      simp only [allBlocks]
      have c1 := (freeBlocks_dictSet_perm fl1 s1 (pySort (dictGetD fl1 s1 ++ [a1]))).countP_eq
        (inBlk x)
      have c2 := hbperm.map (fun y => (y, s1)) |>.countP_eq (inBlk x)
      have c3 := hcnt1 x
      have c4 := hperma.countP_eq (inBlk x)
      simp only [List.countP_append, List.map_append, List.map_cons, List.map_nil,
        List.countP_cons, List.countP_nil] at c1 c2 c3 c4 ⊢
      omega
    · -- block facts
      intro p hp
      simp only [allBlocks] at hp
      rcases List.mem_append.mp hp with hpf | hpa
      · have hperm := freeBlocks_dictSet_perm fl1 s1 (pySort (dictGetD fl1 s1 ++ [a1]))
        rcases List.mem_append.mp (hperm.mem_iff.mp (List.mem_append_left _ hpf)) with h3 | h3
        · exact hblk1 p h3
        · obtain ⟨y, hy, rfl⟩ := List.mem_map.mp h3
          have hy2 := hbperm.mem_iff.mp hy
          rcases List.mem_append.mp hy2 with hy3 | hy3
          · exact hblk1 (y, s1) (mem_freeBlocks_of_dictGetD _ _ y hy3)
          · simp at hy3
            subst hy3
            exact ⟨by simp only []; omega, ⟨j1, by simp only []; exact hsj1⟩,
              by simp only []; exact hdvd1⟩
      · exact hblk p (List.mem_append_right _ ((mapErase_sublist _ _).subset hpa))
    · exact nodup_keys_dictSet _ _ _ hk1
    · exact nodup_keys_mapErase _ _ hndA
    · intro q
      simp only []
      by_cases hq : q = s1
      · subst hq
        rw [dictGetD_dictSet_self]
        exact hbsort
      · rw [dictGetD_dictSet_ne _ _ _ hq]
        exact hsort1 q
    · intro q y hy hy2
      simp only [] at hy hy2
      by_cases hq : q = s1
      · subst hq
        rw [dictGetD_dictSet_self] at hy hy2
        have hy' := hbperm.mem_iff.mp hy
        have hy2' := hbperm.mem_iff.mp hy2
        have hnotold : (a1 ^^^ q) ∉ dictGetD fl1 q := by
          rcases hexit1 with hbig | hok
          · intro hmem2
            have hz := hblk1 (a1 ^^^ q, q) (mem_freeBlocks_of_dictGetD _ _ _ hmem2)
            simp only [] at hz
            have hz0 : a1 ^^^ q = 0 := by omega
            have ha10 : a1 = 0 := by omega
            rw [ha10, Nat.zero_xor] at hz0
            omega
          · exact hok
        rcases List.mem_append.mp hy' with hyo | hya
        · rcases List.mem_append.mp hy2' with hy2o | hy2a
          · exact hbud1 q y hyo hy2o
          · simp at hy2a
            have hyq : y = a1 ^^^ q := by
              rw [← hy2a, xor_cancel_right]
            rw [hyq] at hyo
            exact hnotold hyo
        · simp at hya
          subst hya
          rcases List.mem_append.mp hy2' with hy2o | hy2a
          · exact hnotold hy2o
          · simp at hy2a
            exact xor_ne_self_of_pos y q hs1pos hy2a
      · rw [dictGetD_dictSet_ne _ _ _ hq] at hy hy2
        exact hbud1 q y hy hy2

theorem buddyInv_reachable (b : BuddySystem) (h : Reachable b) : BuddyInv b := by
  induction h with
  | init k => exact buddyInv_init k
  | step_alloc hr hn heq ih => exact buddyInv_allocate _ _ _ _ ih hn heq
  | step_free hr hn heq ih => exact buddyInv_free _ _ _ _ ih hn heq

theorem sum_sizes_eq_counts (T : Nat) :
    ∀ l : List (Nat × Nat), (∀ p ∈ l, p.1 + p.2 ≤ T) →
      (∑ x ∈ Finset.range T, l.countP (inBlk x)) = (l.map (fun p => p.2)).sum := by
  intro l
  induction l with
  | nil =>
    intro hub
    simp [List.countP_nil]
  | cons p l ih =>
    intro hub
    simp only [List.countP_cons, List.map_cons, List.sum_cons]
    rw [Finset.sum_add_distrib]
    rw [ih (fun q hq => hub q (List.mem_cons_of_mem _ hq))]
    have hone : (∑ x ∈ Finset.range T, if inBlk x p = true then 1 else 0) = p.2 := by
      have hp := hub p (List.mem_cons_self _ _)
      have hconv : ∀ x ∈ Finset.range T, (if inBlk x p = true then 1 else 0)
          = if p.1 ≤ x ∧ x < p.1 + p.2 then 1 else 0 := by
        intro x _
        simp [inBlk]
      rw [Finset.sum_congr rfl hconv, Finset.sum_boole]
      have hfil : (Finset.range T).filter (fun x => p.1 ≤ x ∧ x < p.1 + p.2)
          = Finset.Ico p.1 (p.1 + p.2) := by
        ext y
        simp only [Finset.mem_filter, Finset.mem_range, Finset.mem_Ico]
        omega
      rw [hfil]
      simp [Nat.card_Ico]
    omega

/-- C1: in every state reachable from a fresh allocator by positive-size
operations (failed calls leave the state unchanged by the atomicity theorems,
so they are covered), the blocks drawn from the free list and the allocated
registry exactly partition the address range: every point below total_memory
lies in exactly one block, every block lies inside the range, and the sizes of
all blocks (allocated plus free) sum to total_memory. -/
theorem C1_conservation (b : BuddySystem) (h : Reachable b) :
    (∀ x, x < b.total_memory → (allBlocks b).countP (inBlk x) = 1) ∧
    (∀ p ∈ allBlocks b, p.1 + p.2 ≤ b.total_memory) ∧
    ((allBlocks b).map (fun p => p.2)).sum = b.total_memory := by
  obtain ⟨-, hcount, hblk, -⟩ := buddyInv_reachable b h
  refine ⟨hcount, fun p hp => (hblk p hp).1, ?_⟩
  rw [← sum_sizes_eq_counts b.total_memory (allBlocks b) (fun p hp => (hblk p hp).1)]
  calc (∑ x ∈ Finset.range b.total_memory, (allBlocks b).countP (inBlk x))
      = ∑ x ∈ Finset.range b.total_memory, 1 :=
        Finset.sum_congr rfl (fun x hx => hcount x (Finset.mem_range.mp hx))
    _ = b.total_memory := by simp

/-- Witness for C1 at the concrete reachable state of a fresh allocator with
total memory 4. -/
theorem C1_conservation_witness :
    Reachable (mkBuddy 4) ∧
    ((∀ x, x < (mkBuddy 4).total_memory →
        (allBlocks (mkBuddy 4)).countP (inBlk x) = 1) ∧
     (∀ p ∈ allBlocks (mkBuddy 4), p.1 + p.2 ≤ (mkBuddy 4).total_memory) ∧
     ((allBlocks (mkBuddy 4)).map (fun p => p.2)).sum = (mkBuddy 4).total_memory) :=
  ⟨Reachable.init 2, C1_conservation (mkBuddy 4) (Reachable.init 2)⟩

/-- C4: in every reachable state every free list is sorted ascending, and a
successful allocate takes its address from the chosen bucket — the least size
B at least the rounded request with a non-empty list (all smaller candidate
buckets are empty) — and that address is the minimum of that bucket. -/
theorem C4_lowest_address (b : BuddySystem) (h : Reachable b) :
    (∀ kv ∈ b.free_list, List.Sorted (· ≤ ·) kv.2) ∧
    (∀ n a b', 1 ≤ n → allocate b n = (Except.ok a, b') →
      ∃ B, next_power_of_two n ≤ B ∧ a ∈ dictGetD b.free_list B ∧
        (∀ x ∈ dictGetD b.free_list B, a ≤ x) ∧
        (∀ k, next_power_of_two n ≤ k → k < B → dictGetD b.free_list k = [])) := by
  obtain ⟨-, -, -, hndF, -, hsort, -⟩ := buddyInv_reachable b h
  refine ⟨?_, ?_⟩
  · intro kv hkv
    have hs := hsort kv.1
    rw [dictGetD_of_mem_nodup b.free_list kv hndF hkv] at hs
    exact hs
  · intro n a b' hn heq
    obtain ⟨hTle, B, tl, hB, hgB, hbetween, -⟩ := allocate_ok_spec b n a b' heq
    refine ⟨B, hB, by rw [hgB]; exact List.mem_cons_self _ _, ?_, hbetween⟩
    intro x hx
    have hs := hsort B
    rw [hgB] at hs hx
    rcases List.mem_cons.mp hx with rfl | hx
    · exact le_refl _
    · exact List.rel_of_sorted_cons hs x hx

/-- Witness for C4 at the concrete reachable state of a fresh allocator with
total memory 4. -/
theorem C4_lowest_address_witness :
    Reachable (mkBuddy 4) ∧
    ((∀ kv ∈ (mkBuddy 4).free_list, List.Sorted (· ≤ ·) kv.2) ∧
     (∀ n a b', 1 ≤ n → allocate (mkBuddy 4) n = (Except.ok a, b') →
       ∃ B, next_power_of_two n ≤ B ∧ a ∈ dictGetD (mkBuddy 4).free_list B ∧
         (∀ x ∈ dictGetD (mkBuddy 4).free_list B, a ≤ x) ∧
         (∀ k, next_power_of_two n ≤ k → k < B →
           dictGetD (mkBuddy 4).free_list k = []))) :=
  ⟨Reachable.init 2, C4_lowest_address (mkBuddy 4) (Reachable.init 2)⟩

/-- C7: in every reachable state, the address returned by a successful
allocate with positive size is a multiple of the rounded (power-of-two) size,
every address in a free list is a multiple of its bucket size, and every
allocated address is a multiple of its recorded size. -/
theorem C7_alignment (b : BuddySystem) (h : Reachable b) :
    (∀ n a b', 1 ≤ n → allocate b n = (Except.ok a, b') →
      a % next_power_of_two n = 0) ∧
    (∀ kv ∈ b.free_list, ∀ x ∈ kv.2, x % kv.1 = 0) ∧
    (∀ p ∈ b.allocated, p.1 % p.2 = 0) := by
  obtain ⟨-, -, hblk, -⟩ := buddyInv_reachable b h
  refine ⟨?_, ?_, ?_⟩
  · intro n a b' hn heq
    obtain ⟨j, hsj, -⟩ := next_power_of_two_pow n hn
    obtain ⟨hTle, B, tl, hB, hgB, -, -⟩ := allocate_ok_spec b n a b' heq
    have hmem : (a, B) ∈ freeBlocks b.free_list :=
      mem_freeBlocks_of_dictGetD _ B a (by rw [hgB]; exact List.mem_cons_self _ _)
    obtain ⟨-, ⟨m, hm⟩, hdv⟩ := hblk _ (List.mem_append_left _ hmem)
    simp only [] at hm hdv
    rw [hsj]
    rw [hsj, hm] at hB
    have hjm : j ≤ m := by
      have := Nat.pow_le_pow_iff_right (a := 2) (by norm_num) |>.mp hB
      omega
    apply Nat.mod_eq_zero_of_dvd
    refine dvd_trans ?_ hdv
    rw [hm]
    exact pow_dvd_pow 2 hjm
  · intro kv hkv x hx
    have hmem : (x, kv.1) ∈ freeBlocks b.free_list := by
      rw [mem_freeBlocks_iff]
      exact ⟨kv.2, by cases kv; exact ⟨hkv, hx⟩⟩
    obtain ⟨-, -, hdv⟩ := hblk _ (List.mem_append_left _ hmem)
    simp only [] at hdv
    exact Nat.mod_eq_zero_of_dvd hdv
  · intro p hp
    obtain ⟨-, -, hdv⟩ := hblk p (List.mem_append_right _ hp)
    exact Nat.mod_eq_zero_of_dvd hdv

/-- Witness for C7 at the concrete reachable state of a fresh allocator with
total memory 4. -/
theorem C7_alignment_witness :
    Reachable (mkBuddy 4) ∧
    ((∀ n a b', 1 ≤ n → allocate (mkBuddy 4) n = (Except.ok a, b') →
       a % next_power_of_two n = 0) ∧
     (∀ kv ∈ (mkBuddy 4).free_list, ∀ x ∈ kv.2, x % kv.1 = 0) ∧
     (∀ p ∈ (mkBuddy 4).allocated, p.1 % p.2 = 0)) :=
  ⟨Reachable.init 2, C7_alignment (mkBuddy 4) (Reachable.init 2)⟩

/-- C10: in every reachable state no free list holds an address together with
its buddy of the same size — free space is always maximally coalesced. -/
theorem C10_eager_coalescing (b : BuddySystem) (h : Reachable b) :
    ∀ kv ∈ b.free_list, ∀ a ∈ kv.2, (a ^^^ kv.1) ∉ kv.2 := by
  obtain ⟨-, -, -, hndF, -, -, hbud⟩ := buddyInv_reachable b h
  intro kv hkv a ha
  have he := dictGetD_of_mem_nodup b.free_list kv hndF hkv
  have hb2 := hbud kv.1 a (by rw [he]; exact ha)
  rw [he] at hb2
  exact hb2

/-- Witness for C10 at the concrete reachable state of a fresh allocator with
total memory 4. -/
theorem C10_eager_coalescing_witness :
    Reachable (mkBuddy 4) ∧
    (∀ kv ∈ (mkBuddy 4).free_list, ∀ a ∈ kv.2, (a ^^^ kv.1) ∉ kv.2) :=
  ⟨Reachable.init 2, C10_eager_coalescing (mkBuddy 4) (Reachable.init 2)⟩

/-- C5: allocate with a positive size fails with RequestTooLarge exactly when
the rounded size exceeds total memory; otherwise it fails with NoSuitableBlock
exactly when every size at least the rounded request has an empty free list;
and every failing call returns the state unchanged. -/
theorem C5_allocate_failure (b : BuddySystem) (n : Nat) (hn : 1 ≤ n) :
    ((allocate b n).1 = Except.error AllocError.requestTooLarge ↔
      b.total_memory < next_power_of_two n) ∧
    (next_power_of_two n ≤ b.total_memory →
      ((allocate b n).1 = Except.error AllocError.noSuitableBlock ↔
        ∀ B, next_power_of_two n ≤ B → dictGetD b.free_list B = [])) ∧
    (∀ e, (allocate b n).1 = Except.error e → (allocate b n).2 = b) :=
  ⟨allocate_rtl_iff b n, fun hle => allocate_nsb_iff b n hle,
   fun e he => allocate_error_state b n e he⟩

/-- Witness for C5 at a fresh allocator with total memory 4 and request 3. -/
theorem C5_allocate_failure_witness :
    1 ≤ 3 ∧
    (((allocate (mkBuddy 4) 3).1 = Except.error AllocError.requestTooLarge ↔
       (mkBuddy 4).total_memory < next_power_of_two 3) ∧
     (next_power_of_two 3 ≤ (mkBuddy 4).total_memory →
       ((allocate (mkBuddy 4) 3).1 = Except.error AllocError.noSuitableBlock ↔
         ∀ B, next_power_of_two 3 ≤ B → dictGetD (mkBuddy 4).free_list B = [])) ∧
     (∀ e, (allocate (mkBuddy 4) 3).1 = Except.error e →
       (allocate (mkBuddy 4) 3).2 = mkBuddy 4)) :=
  ⟨by decide, C5_allocate_failure (mkBuddy 4) 3 (by decide)⟩

/-- C6: free with a positive size fails with RequestTooLarge exactly when the
rounded size exceeds total memory; otherwise it fails with InvalidFree exactly
when the address is not allocated or its recorded size differs from the
rounded size; and every failing call returns the state unchanged. -/
theorem C6_free_failure (b : BuddySystem) (addr n : Nat) (hn : 1 ≤ n) :
    ((free b addr n).1 = Except.error AllocError.requestTooLarge ↔
      b.total_memory < next_power_of_two n) ∧
    (next_power_of_two n ≤ b.total_memory →
      ((free b addr n).1 = Except.error AllocError.invalidFree ↔
        lookupA b.allocated addr = none ∨
        ∃ s0, lookupA b.allocated addr = some s0 ∧ s0 ≠ next_power_of_two n)) ∧
    (∀ e, (free b addr n).1 = Except.error e → (free b addr n).2 = b) := by
  by_cases hg : b.total_memory < next_power_of_two n
  · rw [free_rtl _ _ _ hg]
    refine ⟨by simp [hg], fun hle => absurd hle (by omega), fun e he => rfl⟩
  · cases hl : lookupA b.allocated addr with
    | none =>
      rw [free_invalid_none _ _ _ hg hl]
      refine ⟨?_, ?_, fun e he => rfl⟩
      · constructor
        · intro h2
          injection h2 with h2
          exact absurd h2 (by decide)
        · intro h2
          exact absurd h2 hg
      · intro hle
        exact ⟨fun _ => Or.inl rfl, fun _ => rfl⟩
    | some s0 =>
      by_cases hne : s0 ≠ next_power_of_two n
      · rw [free_invalid_mismatch _ _ _ _ hg hl hne]
        refine ⟨?_, ?_, fun e he => rfl⟩
        · constructor
          · intro h2
            injection h2 with h2
            exact absurd h2 (by decide)
          · intro h2
            exact absurd h2 hg
        · intro hle
          exact ⟨fun _ => Or.inr ⟨s0, rfl, hne⟩, fun _ => rfl⟩
      · push_neg at hne
        subst hne
        rw [free_ok_eq _ _ _ hg hl]
        refine ⟨?_, ?_, fun e he => by injection he⟩
        · constructor
          · intro h2
            injection h2
          · intro h2
            exact absurd h2 hg
        · intro hle
          constructor
          · intro h2
            injection h2
          · intro h2
            rcases h2 with h2 | ⟨s1, hs1, hne1⟩
            · injection h2
            · injection hs1 with hs1
              exact absurd hs1.symm hne1
    
/-- Witness for C6 at a fresh allocator with total memory 4, address 1 and
size 2. -/
theorem C6_free_failure_witness :
    1 ≤ 2 ∧
    (((free (mkBuddy 4) 1 2).1 = Except.error AllocError.requestTooLarge ↔
       (mkBuddy 4).total_memory < next_power_of_two 2) ∧
     (next_power_of_two 2 ≤ (mkBuddy 4).total_memory →
       ((free (mkBuddy 4) 1 2).1 = Except.error AllocError.invalidFree ↔
         lookupA (mkBuddy 4).allocated 1 = none ∨
         ∃ s0, lookupA (mkBuddy 4).allocated 1 = some s0 ∧
           s0 ≠ next_power_of_two 2)) ∧
     (∀ e, (free (mkBuddy 4) 1 2).1 = Except.error e →
       (free (mkBuddy 4) 1 2).2 = mkBuddy 4)) :=
  ⟨by decide, C6_free_failure (mkBuddy 4) 1 2 (by decide)⟩

theorem ldiff_zero_zero : Nat.ldiff 0 0 = 0 := by
  apply Nat.eq_of_testBit_eq
  intro i
  rw [Nat.testBit_ldiff, Nat.zero_testBit]
  rfl

theorem int_land_natCast (m n0 : Nat) :
    Int.land (m : Int) (n0 : Int) = ((m &&& n0 : Nat) : Int) := rfl

theorem int_land_negSucc (m n0 : Nat) :
    Int.land (Int.negSucc m) (Int.negSucc n0) = Int.negSucc (m ||| n0) := rfl

theorem pyInit_zero : pyInit 0 = Except.ok (mkBuddy 0) := by
  have h1 : (0 : Int) - 1 = Int.negSucc 0 := by decide
  have h : Int.land 0 ((0 : Int) - 1) = 0 := by
    rw [h1]
    rw [show Int.land (0 : Int) (Int.negSucc 0) = Int.ofNat (Nat.ldiff 0 0) from rfl]
    rw [ldiff_zero_zero]
    rfl
  unfold pyInit
  rw [if_neg (fun hc => hc h)]
  rfl

/-- C2: the claim states that construction fails with NotPowerOfTwo for every
integer that is not a positive power of two, including zero. The code instead
accepts zero: the check total_memory & (total_memory - 1) != 0 evaluates
0 & -1 == 0, so BuddySystem(0) is constructed with free_list {0: [0]},
contradicting the docstring requirement that total memory be a power of two.
This theorem exhibits the divergence at input 0 and verifies the remaining
parts of the claim: zero is not a power of two, every negative integer is
rejected, and every positive power of two is accepted with the claimed
initial state. -/
theorem C2_constructor_zero_divergence :
    pyInit 0 = Except.ok (mkBuddy 0) ∧
    (∀ k : Nat, (0 : Int) ≠ 2 ^ k) ∧
    (∀ m : Nat, pyInit (Int.negSucc m) = Except.error AllocError.notPowerOfTwo) ∧
    (∀ k : Nat, pyInit ((2 : Int) ^ k) = Except.ok (mkBuddy (2 ^ k))) := by
  refine ⟨pyInit_zero, ?_, ?_, ?_⟩
  · intro k h
    exact absurd h.symm (pow_ne_zero k (by norm_num))
  · intro m
    unfold pyInit
    rw [if_pos ?_]
    rw [Int.negSucc_sub_one, int_land_negSucc]
    simp
  · intro k
    have h1 : ((2 : Int)) ^ k = ((2 ^ k : Nat) : Int) := by
      push_cast
      ring
    have hpow : (1 : Nat) ≤ 2 ^ k := Nat.one_le_two_pow
    have h2 : ((2 ^ k : Nat) : Int) - 1 = ((2 ^ k - 1 : Nat) : Int) :=
      (Int.ofNat_sub hpow).symm
    have h3 : Int.land ((2 : Int) ^ k) ((2 : Int) ^ k - 1) = 0 := by
      rw [h1, h2, int_land_natCast, land_pred_of_pow]
      rfl
    unfold pyInit
    rw [if_neg (fun hc => hc h3)]
    rw [h1]
    rw [show (((2 ^ k : Nat) : Int)).toNat = 2 ^ k from Int.toNat_ofNat _]

theorem splitLoop_zero_getD (a : Nat) : ∀ (B : Nat) (fl : List (Nat × List Nat)), 1 ≤ B →
    dictGetD (splitLoop fl a 0 B) 0 = dictGetD fl 0 ++ [a] := by
  intro B
  induction B using Nat.strong_induction_on with
  | _ B ih =>
    intro fl hB
    rw [splitLoop_step _ _ _ _ (by omega)]
    by_cases hB2 : 2 ≤ B
    · have h1 : 1 ≤ B / 2 := by omega
      rw [ih (B / 2) (Nat.div_lt_self (by omega) (by norm_num)) _ h1,
        dictGetD_dictAppend_ne _ _ _ (by omega : (0 : Nat) ≠ B / 2)]
    · have hB1 : B = 1 := by omega
      subst hB1
      rw [show (1 : Nat) / 2 = 0 from rfl, show a + 0 = a from rfl,
        splitLoop_stop _ _ _ _ (by omega), dictGetD_dictAppend_self]

/-- C9: allocate(0) on a fresh allocator does not fail: the request rounds to
size 0, passes the size guard, takes the whole-memory block at address 0, and
the split loop runs all the way down to block size 0, appending address 0 to
free_list[0]. Afterwards address 0 is recorded in allocated with size 0 and is
simultaneously present in the free list of size 0. -/
theorem C9_allocate_zero (k : Nat) :
    ∃ b', allocate (mkBuddy (2 ^ k)) 0 = (Except.ok 0, b') ∧
      lookupA b'.allocated 0 = some 0 ∧ dictGetD b'.free_list 0 = [0] ∧
      0 ∈ dictGetD b'.free_list 0 := by
  have hpk : (1 : Nat) ≤ 2 ^ k := Nat.one_le_two_pow
  have hnpot : next_power_of_two 0 = 0 := rfl
  have hkeys : pySort (keys (mkBuddy (2 ^ k)).free_list) = [2 ^ k] := rfl
  have hbkt : dictGetD (mkBuddy (2 ^ k)).free_list (2 ^ k) = 0 :: [] := by
    simp only [mkBuddy]
    rw [dictGetD_cons, if_pos rfl]
  have heval : allocate (mkBuddy (2 ^ k)) 0 =
      (Except.ok 0,
       { total_memory := (mkBuddy (2 ^ k)).total_memory,
         free_list := splitLoop (dictSet (mkBuddy (2 ^ k)).free_list (2 ^ k) []) 0 0 (2 ^ k),
         allocated := mapSet (mkBuddy (2 ^ k)).allocated 0 0 }) := by
    rw [allocate, hnpot, if_neg (by omega), hkeys,
      allocLoop_cons_take (mkBuddy (2 ^ k)) 0 (2 ^ k) [] 0 [] (by omega) hbkt]
  refine ⟨_, heval, ?_, ?_, ?_⟩
  · rfl
  · rw [splitLoop_zero_getD 0 (2 ^ k) _ hpk]
    simp only [mkBuddy]
    rw [show dictSet [(2 ^ k, [0])] (2 ^ k) [] = [(2 ^ k, [])] from
      dictSet_cons_self (2 ^ k, [0]) [] []]
    rw [dictGetD_cons, if_neg (by omega)]
    rfl
  · rw [splitLoop_zero_getD 0 (2 ^ k) _ hpk]
    simp

theorem mergeLoop_climb (total : Nat) : ∀ (d : Nat) (g : List (Nat × List Nat)) (a j : Nat),
    2 ^ (j + d) ∣ a →
    (∀ t, t < d → dictGetD g (2 ^ (j + t)) = [a + 2 ^ (j + t)]) →
    2 ^ (j + d) ≤ total →
    ∃ gleft, mergeLoop total g a (2 ^ j) = mergeLoop total gleft a (2 ^ (j + d)) ∧
      (∀ t, t < d → dictGetD gleft (2 ^ (j + t)) = []) ∧
      (∀ k, (∀ t, t < d → k ≠ 2 ^ (j + t)) → dictGetD gleft k = dictGetD g k) := by
  intro d
  induction d with
  | zero =>
    intro g a j hdvd hbkt hle
    exact ⟨g, by rw [Nat.add_zero], fun t ht => by omega, fun k hk => rfl⟩
  | succ d ih =>
    intro g a j hdvd hbkt hle
    have hlt : (2 : Nat) ^ j < total :=
      lt_of_lt_of_le (Nat.pow_lt_pow_right (by norm_num) (by omega)) hle
    have hdvd1 : 2 ^ (j + 1) ∣ a := dvd_trans (pow_dvd_pow 2 (by omega)) hdvd
    have hdvdj : 2 ^ j ∣ a := dvd_trans (pow_dvd_pow 2 (by omega)) hdvd
    have heven : a / 2 ^ j % 2 = 0 := by
      obtain ⟨c, rfl⟩ := hdvd1
      have he1 : (2 : Nat) ^ (j + 1) * c = 2 ^ j * (2 * c) := by ring
      rw [he1, Nat.mul_div_cancel_left _ (Nat.pos_pow_of_pos j (by norm_num))]
      omega
    have hxe : a ^^^ 2 ^ j = a + 2 ^ j := by
      rcases xor_two_pow_dvd j a hdvdj with ⟨-, he⟩ | ⟨hod, -, -⟩
      · exact he
      · omega
    have h0 := hbkt 0 (by omega)
    rw [Nat.add_zero] at h0
    have hmem : (a ^^^ 2 ^ j) ∈ dictGetD g (2 ^ j) := by
      rw [hxe, h0]
      simp
    rw [mergeLoop_found total g a (2 ^ j) hlt hmem]
    have herase : (dictGetD g (2 ^ j)).erase (a ^^^ 2 ^ j) = [] := by
      rw [h0, hxe]
      simp
    have hmin : min a (a ^^^ 2 ^ j) = a := by
      rw [hxe]
      omega
    rw [hmin, herase, show (2 : Nat) ^ j * 2 = 2 ^ (j + 1) from by ring]
    obtain ⟨gleft, hml, hempty, hrest⟩ := ih (dictSet g (2 ^ j) []) a (j + 1)
      (by rw [show j + 1 + d = j + (d + 1) from by omega]; exact hdvd)
      (fun t ht => by
        rw [dictGetD_dictSet_ne _ _ _ (fun he => absurd (two_pow_inj he) (by omega)),
          show j + 1 + t = j + (t + 1) from by omega]
        exact hbkt (t + 1) (by omega))
      (by rw [show j + 1 + d = j + (d + 1) from by omega]; exact hle)
    refine ⟨gleft, ?_, ?_, ?_⟩
    · rw [hml, show j + 1 + d = j + (d + 1) from by omega]
    · intro t ht
      cases t with
      | zero =>
        rw [Nat.add_zero]
        rw [hrest (2 ^ j) (fun t2 ht2 he => absurd (two_pow_inj he) (by omega)),
          dictGetD_dictSet_self]
      | succ t0 =>
        rw [show j + (t0 + 1) = j + 1 + t0 from by omega]
        exact hempty t0 (by omega)
    · intro k hk
      rw [hrest k (fun t ht => by
          have hk2 := hk (t + 1) (by omega)
          rw [show j + (t + 1) = j + 1 + t from by omega] at hk2
          exact hk2),
        dictGetD_dictSet_ne _ _ _ (by
          have hk0 := hk 0 (by omega)
          rw [Nat.add_zero] at hk0
          exact hk0)]

theorem fresh_address_of_free (b : BuddySystem)
    (hcount : ∀ x, x < b.total_memory → (allBlocks b).countP (inBlk x) = 1)
    (hblk : ∀ p ∈ allBlocks b, p.1 + p.2 ≤ b.total_memory ∧ (∃ j, p.2 = 2 ^ j) ∧ p.2 ∣ p.1)
    (a B : Nat) (hmem : (a, B) ∈ freeBlocks b.free_list) :
    lookupA b.allocated a = none := by
  cases hlf : lookupA b.allocated a with
  | none => rfl
  | some s2 =>
    exfalso
    have hmem2 : (a, s2) ∈ b.allocated := lookupA_some_mem _ _ _ hlf
    obtain ⟨hbd, ⟨jB, hjB⟩, -⟩ := hblk (a, B) (List.mem_append_left _ hmem)
    obtain ⟨-, ⟨j2, hj2⟩, -⟩ := hblk (a, s2) (List.mem_append_right _ hmem2)
    simp only [] at hbd hjB hj2
    have hpB : (0 : Nat) < B := by
      rw [hjB]
      exact Nat.pos_pow_of_pos jB (by norm_num)
    have hpj2 : (0 : Nat) < s2 := by
      rw [hj2]
      exact Nat.pos_pow_of_pos j2 (by norm_num)
    have haT : a < b.total_memory := by omega
    have hc := hcount a haT
    have h1 : 0 < (freeBlocks b.free_list).countP (inBlk a) := by
      refine List.countP_pos_iff.mpr ⟨(a, B), hmem, ?_⟩
      simp only [inBlk, decide_eq_true_eq]
      omega
    have h2 : 0 < (b.allocated).countP (inBlk a) := by
      refine List.countP_pos_iff.mpr ⟨(a, s2), hmem2, ?_⟩
      simp only [inBlk, decide_eq_true_eq]
      omega
    rw [allBlocks, List.countP_append] at hc
    omega

/-- C3: in every reachable state, a successful allocate of a positive size,
immediately followed by free of the returned address with the same size
argument, succeeds and restores the free list exactly (every size maps to
the same address list as before the allocation; the allocated registry is
also restored verbatim). -/
theorem C3_roundtrip (b : BuddySystem) (h : Reachable b) (n a : Nat) (b' : BuddySystem)
    (hn : 1 ≤ n) (hal : allocate b n = (Except.ok a, b')) :
    ∃ b'', free b' a n = (Except.ok (), b'') ∧
      (∀ k, dictGetD b''.free_list k = dictGetD b.free_list k) ∧
      b''.allocated = b.allocated := by
  obtain ⟨⟨kT, hkT⟩, hcount, hblk, hndF, hndA, hsort, hbud⟩ := buddyInv_reachable b h
  obtain ⟨j, hsj, hnle⟩ := next_power_of_two_pow n hn
  obtain ⟨hTle, B, tl, hB, hgB, hbetween, hb'⟩ := allocate_ok_spec b n a b' hal
  rw [hsj] at hTle hB hbetween hb'
  have hmemaB : (a, B) ∈ freeBlocks b.free_list :=
    mem_freeBlocks_of_dictGetD _ B a (by rw [hgB]; exact List.mem_cons_self _ _)
  obtain ⟨haBbound, ⟨m, hBm⟩, hBdvda⟩ := hblk (a, B) (List.mem_append_left _ hmemaB)
  simp only [] at haBbound hBdvda hBm
  rw [hBm] at hB hgB hbetween hb' haBbound hBdvda hmemaB
  subst hb'
  have hjm : j ≤ m := by
    have := Nat.pow_le_pow_iff_right (a := 2) (by norm_num) |>.mp hB
    omega
  have hfresh2 : lookupA b.allocated a = none :=
    fresh_address_of_free b hcount hblk a (2 ^ m) hmemaB
  have hanotin : a ∉ keys b.allocated := (lookupA_eq_none_iff _ _).mp hfresh2
  have hmapset : mapSet b.allocated a (2 ^ j) = b.allocated ++ [(a, 2 ^ j)] :=
    mapSet_eq_append _ _ _ hanotin
  have hfl1B : dictGetD (dictSet b.free_list (2 ^ m) tl) (2 ^ m) = tl :=
    dictGetD_dictSet_self _ _ _
  obtain ⟨hsplitA, hsplitB⟩ := splitLoop_getD j m (dictSet b.free_list (2 ^ m) tl) a hjm
  set fl2 := splitLoop (dictSet b.free_list (2 ^ m) tl) a (2 ^ j) (2 ^ m) with hfl2
  have hbkt2 : ∀ t, t < m - j → dictGetD fl2 (2 ^ (j + t)) = [a + 2 ^ (j + t)] := by
    intro t ht
    rw [hsplitA (j + t) (by omega) (by omega),
      dictGetD_dictSet_ne _ _ _ (fun he => absurd (two_pow_inj he) (by omega)),
      hbetween _ (Nat.pow_le_pow_right (by norm_num) (by omega))
        (Nat.pow_lt_pow_right (by norm_num) (by omega))]
    rfl
  obtain ⟨gleft, hml, hempty, hrest⟩ := mergeLoop_climb b.total_memory (m - j) fl2 a j
    (by rw [show j + (m - j) = m from by omega]; exact hBdvda)
    hbkt2
    (by rw [show j + (m - j) = m from by omega]; omega)
  rw [show j + (m - j) = m from by omega] at hml
  have hgleftB : dictGetD gleft (2 ^ m) = tl := by
    rw [hrest (2 ^ m) (fun t ht he => absurd (two_pow_inj he) (by omega)),
      hsplitB (2 ^ m) (fun i h1 h2 he => absurd (two_pow_inj he) (by omega)), hfl1B]
  have hfinal : mergeLoop b.total_memory fl2 a (2 ^ j) = (a, 2 ^ m, gleft) := by
    rw [hml]
    by_cases hmt : 2 ^ m < b.total_memory
    · refine mergeLoop_notfound _ _ _ _ hmt ?_
      rw [hgleftB]
      have hb2 := hbud (2 ^ m) a (by rw [hgB]; exact List.mem_cons_self _ _)
      rw [hgB] at hb2
      intro hmem2
      exact hb2 (List.mem_cons_of_mem _ hmem2)
    · exact mergeLoop_stop _ _ _ _ hmt
  have hg2 : ¬(b.total_memory < next_power_of_two n) := by
    rw [hsj]
    omega
  have hl2 : lookupA (mapSet b.allocated a (2 ^ j)) a = some (next_power_of_two n) := by
    rw [hmapset, hsj]
    exact lookupA_append_self _ _ _ hanotin
  have heval := free_ok_eq
    { total_memory := b.total_memory, free_list := fl2,
      allocated := mapSet b.allocated a (2 ^ j) } a n hg2 hl2
  simp only [] at heval
  rw [hsj, hfinal] at heval
  simp only [] at heval
  rw [hgleftB] at heval
  have hsort_atl : List.Sorted (· ≤ ·) (a :: tl) := by
    have hs := hsort (2 ^ m)
    rw [hgB] at hs
    exact hs
  have hps : pySort (tl ++ [a]) = a :: tl :=
    List.eq_of_perm_of_sorted
      ((pySort_perm _).trans
        (List.perm_append_comm : (tl ++ [a]).Perm (a :: tl)))
      (pySort_sorted _) hsort_atl
  have hme : mapErase (mapSet b.allocated a (2 ^ j)) a = b.allocated := by
    rw [hmapset]
    exact mapErase_append_self _ _ _ hanotin
  rw [hps, hme] at heval
  refine ⟨_, heval, ?_, rfl⟩
  intro k
  simp only []
  by_cases hk : k = 2 ^ m
  · subst hk
    rw [dictGetD_dictSet_self, hgB]
  · rw [dictGetD_dictSet_ne _ _ _ hk]
    by_cases hpk : ∃ t, t < m - j ∧ k = 2 ^ (j + t)
    · obtain ⟨t, ht, rfl⟩ := hpk
      rw [hempty t ht,
        hbetween _ (Nat.pow_le_pow_right (by norm_num) (by omega))
          (Nat.pow_lt_pow_right (by norm_num) (by omega))]
    · push_neg at hpk
      rw [hrest k (fun t ht => hpk t ht), hsplitB k ?_,
        dictGetD_dictSet_ne _ _ _ hk]
      intro i h1 h2
      have hpk2 := hpk (i - j) (by omega)
      rw [show j + (i - j) = i from by omega] at hpk2
      exact hpk2

/-- Witness for C3: on a fresh allocator with total memory 2, allocate(1)
returns address 0 and the immediate free(0, 1) restores the free list. -/
theorem C3_roundtrip_witness :
    Reachable (mkBuddy 2) ∧ 1 ≤ 1 ∧
    allocate (mkBuddy 2) 1 =
      (Except.ok 0, ⟨2, [(2, []), (1, [1])], [(0, 1)]⟩) ∧
    (∃ b'', free (⟨2, [(2, []), (1, [1])], [(0, 1)]⟩ : BuddySystem) 0 1 =
        (Except.ok (), b'') ∧
      (∀ k, dictGetD b''.free_list k = dictGetD (mkBuddy 2).free_list k) ∧
      b''.allocated = (mkBuddy 2).allocated) := by
  have he : allocate (mkBuddy 2) 1 =
      (Except.ok 0, ⟨2, [(2, []), (1, [1])], [(0, 1)]⟩) := by
    rw [allocate, show next_power_of_two 1 = 1 from rfl, if_neg (by decide),
      show pySort (keys (mkBuddy 2).free_list) = [2] from rfl,
      allocLoop_cons_take (mkBuddy 2) 1 2 [] 0 [] (by decide) rfl,
      splitLoop_step _ _ _ _ (by norm_num), splitLoop_stop _ _ _ _ (by norm_num)]
    rfl
  exact ⟨Reachable.init 1, le_refl 1, he,
    C3_roundtrip (mkBuddy 2) (Reachable.init 1) 1 0 _ (le_refl 1) he⟩

/-- C8: the concrete split/merge scenario on a fresh allocator with total
memory 1024. allocate(200) rounds to 256 and returns address 0, leaving
exactly a free 512-block at 512 and a free 256-block at 256; allocate(100)
rounds to 128 and returns address 256; free(0, 256) and then free(256, 128)
coalesce everything back so that the only free block is the whole range and
nothing is allocated. -/
theorem C8_split_merge_example :
    next_power_of_two 200 = 256 ∧
    next_power_of_two 100 = 128 ∧
    allocate (mkBuddy 1024) 200 =
      (Except.ok 0, ⟨1024, [(1024, []), (512, [512]), (256, [256])], [(0, 256)]⟩) ∧
    freeBlocks [(1024, ([] : List Nat)), (512, [512]), (256, [256])] =
      [(512, 512), (256, 256)] ∧
    allocate (⟨1024, [(1024, []), (512, [512]), (256, [256])], [(0, 256)]⟩ : BuddySystem)
        100 =
      (Except.ok 256,
       ⟨1024, [(1024, []), (512, [512]), (256, []), (128, [384])],
        [(0, 256), (256, 128)]⟩) ∧
    free (⟨1024, [(1024, []), (512, [512]), (256, []), (128, [384])],
        [(0, 256), (256, 128)]⟩ : BuddySystem) 0 256 =
      (Except.ok (),
       ⟨1024, [(1024, []), (512, [512]), (256, [0]), (128, [384])], [(256, 128)]⟩) ∧
    free (⟨1024, [(1024, []), (512, [512]), (256, [0]), (128, [384])],
        [(256, 128)]⟩ : BuddySystem) 256 128 =
      (Except.ok (), ⟨1024, [(1024, [0]), (512, []), (256, []), (128, [])], []⟩) ∧
    freeBlocks [(1024, [0]), (512, ([] : List Nat)), (256, []), (128, [])] = [(0, 1024)] := by
  refine ⟨rfl, rfl, ?_, rfl, ?_, ?_, ?_, rfl⟩
  · rw [allocate, show next_power_of_two 200 = 256 from rfl, if_neg (by decide),
      show pySort (keys (mkBuddy 1024).free_list) = [1024] from rfl,
      allocLoop_cons_take (mkBuddy 1024) 256 1024 [] 0 [] (by decide) rfl,
      splitLoop_step _ _ _ _ (by norm_num), splitLoop_step _ _ _ _ (by norm_num),
      splitLoop_stop _ _ _ _ (by norm_num)]
    rfl
  · rw [allocate, show next_power_of_two 100 = 128 from rfl, if_neg (by decide),
      show pySort (keys (⟨1024, [(1024, []), (512, [512]), (256, [256])],
        [(0, 256)]⟩ : BuddySystem).free_list) = [256, 512, 1024] from rfl,
      allocLoop_cons_take (⟨1024, [(1024, []), (512, [512]), (256, [256])],
        [(0, 256)]⟩ : BuddySystem) 128 256 [512, 1024] 256 [] (by decide) rfl,
      splitLoop_step _ _ _ _ (by norm_num), splitLoop_stop _ _ _ _ (by norm_num)]
    rfl
  · rw [free_ok_eq (⟨1024, [(1024, []), (512, [512]), (256, []), (128, [384])],
        [(0, 256), (256, 128)]⟩ : BuddySystem) 0 256 (by decide) rfl,
      mergeLoop_notfound _ _ _ _ (by decide) (by decide)]
    rfl
  · rw [free_ok_eq (⟨1024, [(1024, []), (512, [512]), (256, [0]), (128, [384])],
        [(256, 128)]⟩ : BuddySystem) 256 128 (by decide) rfl,
      mergeLoop_found _ _ _ _ (by decide) (by decide),
      mergeLoop_found _ _ _ _ (by decide) (by decide),
      mergeLoop_found _ _ _ _ (by decide) (by decide),
      mergeLoop_stop _ _ _ _ (by decide)]
    rfl
